import Mathlib

/-!
Verification of the diffnest comparison and matching engine.

This file is a shallow embedding of the Go sources of the diffnest
repository (package `diffnest`): the value model (`types.go`), the node
comparator, array matchers, multiline-string splitter, document matcher
with its Hungarian assignment and Kubernetes-style mismatch penalty
(`diff.go`), `HasDifferences` (`controller.go`), and the context
windowing of the unified formatter.

Modelling conventions:
* Go machine integers are modelled as `Int`/`Nat`; all quantities that
  appear (diff counts, costs, penalties `1 <<< 20`, sentinels `1 <<< 30`)
  are far below 2^63, so overflow never matters and no reduction mod 2^64
  is inserted.
* Go `float64` payloads are modelled as `GoFloat`: either NaN or an exact
  rational value.  IEEE equality on finite floats is equality of the
  represented rationals; NaN compares unequal to everything, including
  itself.  A stored `float64` is represented by its exact value; the
  conversion `float64(v)` of an integer (`toFloat64`) is modelled with the
  IEEE round-to-nearest-even at 53 significant bits, which Go performs.
* The dynamic payload of a `StructuredData` (Go `Value any`) is `GoValue`;
  the decoders of this repository (parser.go `convertToStructured`) store
  `nil`, `bool`, integer family, `float64` and `string` payloads, which
  the constructors below cover.  Go interface equality `a.Value == b.Value`
  is `GoValue` decidable equality (distinct constructors are unequal, as
  distinct Go dynamic types are).
* Recursive functions over the tree take an explicit fuel argument (the
  structural recursion argument), so they compute by kernel reduction;
  every theorem about them assumes, or supplies, enough fuel.  With fuel 0
  a comparison returns a childless `Same` node that is never reached when
  the fuel exceeds the combined `sizeOf` of the inputs.
-/

/-- `DataType` of types.go. -/
inductive DataType where
  | typeNull
  | typeBool
  | typeNumber
  | typeString
  | typeArray
  | typeObject
deriving DecidableEq, Repr

/-- A Go `float64` value: NaN or an exact (finite) value.  `±Inf` does not
arise in any scenario below and is omitted. -/
inductive GoFloat where
  | nan
  | val (q : Rat)
deriving DecidableEq, Repr

/-- The dynamic payload stored in `StructuredData.Value` (Go `any`). -/
inductive GoValue where
  /-- Go `nil` (no payload, as for arrays and objects). -/
  | vNone
  | vBool (b : Bool)
  /-- The `int64`/`uint64` integer payloads the decoders of this
  repository store (goccy YAML; JSON numbers decode to `float64`).  The
  two widths are collapsed: every function modelled here treats them
  alike, and no scenario below compares payloads of different widths.
  The decoders never store a plain `int`, so a comparison of the payload
  with the untyped constant `0` (dynamic type `int`) is always false. -/
  | vInt (n : Int)
  | vFloat (f : GoFloat)
  | vStr (s : String)
deriving DecidableEq, Repr

/-- `StructuredData` of types.go.  `Children` (a Go map with unique keys)
is an association list; `Meta` never affects comparison and is dropped. -/
inductive SD where
  | mk (type : DataType) (value : GoValue)
       (children : List (String × SD)) (elements : List SD)

def SD.typ : SD → DataType
  | .mk t _ _ _ => t

def SD.value : SD → GoValue
  | .mk _ v _ _ => v

def SD.children : SD → List (String × SD)
  | .mk _ _ cs _ => cs

def SD.elements : SD → List SD
  | .mk _ _ _ es => es

instance : Inhabited SD := ⟨.mk .typeNull .vNone [] []⟩

/-- `DiffStatus` of types.go. -/
inductive DiffStatus where
  | same
  | modified
  | added
  | deleted
deriving DecidableEq, Repr

/-- `DiffMeta` of types.go (`Note` is never read by the engine and is
dropped).  `DiffCount` is a Go `int` that is always non-negative. -/
structure DiffMeta where
  diffCount : Nat
deriving DecidableEq, Repr

/-- `DiffResult` of types.go.  `from`/`to` are renamed `fromV`/`toV`
(`from` is a Lean keyword); `Meta` is `none` exactly when the Go field is
the nil pointer. -/
inductive DiffResult where
  | mk (status : DiffStatus) (path : List String)
       (fromV toV : Option SD)
       (children : List DiffResult) (meta : Option DiffMeta)

def DiffResult.status : DiffResult → DiffStatus
  | .mk s _ _ _ _ _ => s

def DiffResult.path : DiffResult → List String
  | .mk _ p _ _ _ _ => p

def DiffResult.fromV : DiffResult → Option SD
  | .mk _ _ f _ _ _ => f

def DiffResult.toV : DiffResult → Option SD
  | .mk _ _ _ t _ _ => t

def DiffResult.children : DiffResult → List DiffResult
  | .mk _ _ _ _ cs _ => cs

def DiffResult.meta : DiffResult → Option DiffMeta
  | .mk _ _ _ _ _ m => m

instance : Inhabited DiffResult := ⟨.mk .same [] none none [] none⟩

/-- The Go idiom `cost := 0; if diff.Meta != nil { cost = diff.Meta.DiffCount }`. -/
def DiffResult.cost (d : DiffResult) : Nat :=
  match d.meta with
  | none => 0
  | some m => m.diffCount

/-- Replace the `Path` field (Go `m.diff.Path = childPath`). -/
def DiffResult.withPath (d : DiffResult) (p : List String) : DiffResult :=
  match d with
  | .mk s _ f t cs m => .mk s p f t cs m

/-- `ArrayDiffStrategy` of diff.go. -/
inductive ArrayDiffStrategy where
  | index
  | value
deriving DecidableEq, Repr

/-- `DiffOptions` of diff.go. -/
structure DiffOptions where
  ignoreEmptyFields : Bool := false
  ignoreZeroValues : Bool := false
  ignoreKeyCase : Bool := false
  ignoreValueCase : Bool := false
  arrayDiffStrategy : ArrayDiffStrategy := .index
deriving DecidableEq, Repr

/-! ## Numeric equality (diff.go `equalNumbers`, `toFloat64`, `toInt64`) -/

/-- Bit length of a natural number, with the number itself as fuel
(`bitLen m m` is exact for every `m`: the recursion halves `m` and
terminates within `m` steps). -/
def bitLen : Nat → Nat → Nat
  | 0, _ => 0
  | fuel + 1, m => if m = 0 then 0 else bitLen fuel (m / 2) + 1

/-- Go's conversion `float64(v)` of an integer: round to nearest, ties
to even, at 53 significant bits (the IEEE-754 double mantissa).  The
conversion is exact for magnitudes below 2^53 and rounds above it; the
decoder-produced integers stay far below the float64 overflow threshold,
so no infinity arises. -/
def roundFloat64Int (v : Int) : Int :=
  let m := v.natAbs
  if m < 2 ^ 53 then v
  else
    let e := bitLen m m - 53
    let q := m / 2 ^ e
    let r := m % 2 ^ e
    let half := 2 ^ (e - 1)
    let q2 := if half < r ∨ (r = half ∧ q % 2 = 1) then q + 1 else q
    if 0 ≤ v then (q2 * 2 ^ e : Int) else -(q2 * 2 ^ e : Int)

/-- `toFloat64` of diff.go, on the payloads that occur; the `default`
branch returns 0.  The integer cases perform Go's `float64(val)`
conversion, which rounds to 53 significant bits. -/
def toFloat64 : GoValue → GoFloat
  | .vInt n => .val (roundFloat64Int n)
  | .vFloat f => f
  | _ => .val 0

/-- `toInt64` of diff.go.  For a float payload the Go test
`val == float64(int64(val))` succeeds exactly for integral values in the
int64 range: outside it the conversion saturates to an out-of-range
sentinel on the supported targets and the test fails, and NaN fails it. -/
def toInt64 : GoValue → Option Int
  | .vInt n => some n
  | .vFloat .nan => none
  | .vFloat (.val q) =>
    if q.den = 1 ∧ -(2 ^ 63) ≤ q.num ∧ q.num < 2 ^ 63 then some q.num else none
  | _ => none

/-- IEEE `==` on two float64 values in the exact model: NaN is unequal to
everything, including itself. -/
def GoFloat.feq : GoFloat → GoFloat → Bool
  | .val a, .val b => a == b
  | _, _ => false

/-- `equalNumbers` of diff.go: integer comparison when both sides convert
to int64, float comparison otherwise. -/
def equalNumbers (a b : GoValue) : Bool :=
  match toInt64 a, toInt64 b with
  | some aInt, some bInt => aInt == bInt
  | _, _ => GoFloat.feq (toFloat64 a) (toFloat64 b)

/-! ## Ignore rules and sizes -/

/-- The `switch data.Type` of `shouldIgnore` (diff.go lines 574-587).
The number case is Go's `data.Value == 0 || data.Value == 0.0`: interface
comparison against the untyped constants `0` (dynamic type `int`) and
`0.0` (dynamic type `float64`).  The decoders of this repository store
`int64`/`uint64`/`float64` numeric payloads and never a plain `int`, so
the first disjunct is always false and only a float-typed zero matches. -/
def isZeroValue (d : SD) : Bool :=
  match d.typ with
  | .typeNull => true
  | .typeBool => d.value == .vBool false
  | .typeNumber => d.value == .vFloat (.val 0)
  | .typeString => d.value == .vStr ""
  | .typeArray => d.elements.isEmpty
  | .typeObject => d.children.isEmpty

/-- `shouldIgnore` of diff.go; `none` is the absent side (Go
`exists == false`, in which case `data` is the nil pointer). -/
def shouldIgnore (e : DiffOptions) : Option SD → Bool
  | none => e.ignoreEmptyFields || e.ignoreZeroValues
  | some d => e.ignoreZeroValues && isZeroValue d

/-- `calculateSize` of diff.go (fuelled; fuel 0 is never reached when the
fuel exceeds the `sizeOf` of the argument). -/
def calcSize : Nat → Option SD → Nat
  | _, none => 0
  | 0, some _ => 0
  | n + 1, some d =>
    match d.typ with
    | .typeNull | .typeBool | .typeNumber | .typeString => 1
    | .typeArray => (d.elements.map fun x => calcSize n (some x)).sum
    | .typeObject => (d.children.map fun kv => calcSize n (some kv.2)).sum

/-! ## String helpers -/

/-- ASCII lower-casing of one character (`a-z` range shift). -/
def asciiLower (c : Char) : Char :=
  if 65 ≤ c.toNat ∧ c.toNat ≤ 90 then Char.ofNat (c.toNat + 32) else c

/-- `strings.ToLower`, modelled for ASCII data (all key and value data
considered here is ASCII). -/
def goToLower (s : String) : String := String.mk (s.data.map asciiLower)

/-- `strings.EqualFold`, modelled as ASCII-case-insensitive comparison
(adequate for the data considered here). -/
def goEqualFold (s t : String) : Bool :=
  s.data.map asciiLower == t.data.map asciiLower

/-- `strings.Contains(s, "\n")`. -/
def hasNewline (s : String) : Bool := s.data.contains '\n'

/-- `strings.Split(s, "\n")` on the character list: split at every
line-break, keeping empty pieces (`strings.Split("", sep) = [""]`). -/
def splitNL : List Char → List (List Char)
  | [] => [[]]
  | c :: rest =>
    match splitNL rest with
    | h :: t => if c = '\n' then [] :: h :: t else (c :: h) :: t
    | [] => [[c]]

/-- `strings.Split(s, "\n")`. -/
def goSplitLines (s : String) : List String := (splitNL s.data).map String.mk

/-- Byte-lexicographic string order (the order of Go `sort.Strings`;
UTF-8 byte order coincides with code-point order). -/
def charListLe : List Char → List Char → Bool
  | [], _ => true
  | _ :: _, [] => false
  | a :: as, b :: bs =>
    if a = b then charListLe as bs else decide (a.toNat < b.toNat)

def strLe (s t : String) : Bool := charListLe s.data t.data

/-- `shouldDoLineDiff` of diff.go. -/
def shouldDoLineDiff (a b : SD) : Bool :=
  a.typ == .typeString && b.typ == .typeString &&
    match a.value, b.value with
    | .vStr s, .vStr t => hasNewline s || hasNewline t
    | _, _ => false

/-- The default string comparison of `compareWithPath` (diff.go lines
113-122): Go interface equality, then — only when unequal and
`IgnoreValueCase` is set and both payloads are strings — `EqualFold`. -/
def stringPayloadEqual (e : DiffOptions) (a b : GoValue) : Bool :=
  (a == b) ||
    (e.ignoreValueCase &&
      match a, b with
      | .vStr s, .vStr t => goEqualFold s t
      | _, _ => false)

/-- The synthetic single-line `TypeString` element built by
`compareMultilineStrings`. -/
def lineSD (s : String) : SD := .mk .typeString (.vStr s) [] []

/-- `fmt.Sprintf("[%d]", i)`. -/
def idxSeg (i : Nat) : String := "[" ++ toString i ++ "]"

/-- One position of the index-strategy comparison of the synthetic line
arrays of `compareMultilineStrings` (diff.go lines 963-997).  A piece of
`strings.Split(s, "\n")` contains no line-break, so on these elements the
generic `compareWithPath` reduces to exactly these cases: absent side
(`Added`/`Deleted`, `DiffCount` = `calculateSize` of a scalar = 1) or the
default string comparison (including the `IgnoreValueCase` branch). -/
def compareLinePair (e : DiffOptions) : Option String → Option String → List String → DiffResult
  | none, none, p => .mk .same p none none [] none
  | none, some t, p => .mk .added p none (some (lineSD t)) [] (some ⟨1⟩)
  | some s, none, p => .mk .deleted p (some (lineSD s)) none [] (some ⟨1⟩)
  | some s, some t, p =>
    if stringPayloadEqual e (.vStr s) (.vStr t) then
      .mk .same p (some (lineSD s)) (some (lineSD t)) [] none
    else
      .mk .modified p (some (lineSD s)) (some (lineSD t)) [] (some ⟨1⟩)

/-! ## Child accumulation -/

/-- The Go accumulation `if child.Status != Same { result.Status = Modified }`
over a finished child list. -/
def accumStatus (children : List DiffResult) : DiffStatus :=
  if children.any fun c => c.status != .same then .modified else .same

/-- The Go accumulation
`if child.Status != Same && child.Meta != nil { DiffCount += child.Meta.DiffCount }`. -/
def accumCount (children : List DiffResult) : Nat :=
  (children.map fun c => if c.status != .same then c.cost else 0).sum

/-- The Go test `strings.HasPrefix(seg, "[") && strings.HasSuffix(seg, "]")`
together with the slice `seg[1 : len(seg)-1]` (diff.go lines 1015-1017);
`"[i]"` segments are ASCII so byte slicing is character slicing. -/
def stripIndexSeg (seg : String) : Option String :=
  match seg.data with
  | [] => none
  | c :: rest =>
    if c = '[' ∧ rest.getLast? = some ']' then some (String.mk rest.dropLast)
    else none

/-- diff.go lines 1013-1019: rewrite a final `"[i]"` path segment into
`"line i"`. -/
def relabelLineSeg (p : List String) : List String :=
  match p.getLast? with
  | none => p
  | some lastSeg =>
    match stripIndexSeg lastSeg with
    | some lineNum => p.dropLast ++ ["line " ++ lineNum]
    | none => p

/-! ## The comparator -/

/-- `compareArraysByIndex` of diff.go, parameterized by the element
comparator (the recursive call one fuel level down). -/
def compareArraysByIndexW (cmp : Option SD → Option SD → List String → DiffResult)
    (a b : SD) (path : List String) : DiffResult :=
  let maxLen := max a.elements.length b.elements.length
  let children := (List.range maxLen).map fun i =>
    cmp a.elements[i]? b.elements[i]? (path ++ [idxSeg i])
  .mk (accumStatus children) path (some a) (some b) children (some ⟨accumCount children⟩)

/-- The `match` record of `compareArraysByValue`. -/
structure MatchEntry where
  indexA : Nat
  indexB : Nat
  diff : DiffResult
  cost : Nat

/-- The greedy selection loop of `compareArraysByValue` (diff.go lines
269-279): take each entry in order unless its row or column is used.
Returns the selected entries and the final used-row/used-column sets. -/
def selectGreedy : List MatchEntry → List Nat → List Nat →
    List MatchEntry × List Nat × List Nat
  | [], usedA, usedB => ([], usedA, usedB)
  | m :: rest, usedA, usedB =>
    if usedA.contains m.indexA || usedB.contains m.indexB then
      selectGreedy rest usedA usedB
    else
      let r := selectGreedy rest (m.indexA :: usedA) (m.indexB :: usedB)
      (m :: r.1, r.2.1, r.2.2)

/-- The all-pairs comparison list of `compareArraysByValue` (diff.go
lines 247-261), in discovery order (`i`-major). -/
def valuePairs (cmp : Option SD → Option SD → List String → DiffResult)
    (a b : SD) : List MatchEntry :=
  a.elements.enum.flatMap fun ia =>
    b.elements.enum.map fun jb =>
      let d := cmp (some ia.2) (some jb.2) []
      MatchEntry.mk ia.1 jb.1 d d.cost

/-- The sort and greedy selection of `compareArraysByValue` (diff.go
lines 263-279).  Go sorts with the unstable `sort.Slice` and `cost <`;
the model fixes the tie order with a stable sort, one of the permutations
the unstable sort may produce. -/
def valueSelection (cmp : Option SD → Option SD → List String → DiffResult)
    (a b : SD) : List MatchEntry × List Nat × List Nat :=
  selectGreedy ((valuePairs cmp a b).insertionSort fun x y => x.cost ≤ y.cost) [] []

/-- The `Deleted` children for unmatched elements of `a` (diff.go lines
281-292). -/
def valueDelChildren (cmp : Option SD → Option SD → List String → DiffResult)
    (a b : SD) (path : List String) : List DiffResult :=
  (a.elements.enum.filter fun ia =>
    !(valueSelection cmp a b).2.1.contains ia.1).map
    fun ia => cmp (some ia.2) none (path ++ [idxSeg ia.1])

/-- The `Added` children for unmatched elements of `b` (diff.go lines
294-305). -/
def valueAddChildren (cmp : Option SD → Option SD → List String → DiffResult)
    (a b : SD) (path : List String) : List DiffResult :=
  (b.elements.enum.filter fun jb =>
    !(valueSelection cmp a b).2.2.contains jb.1).map
    fun jb => cmp none (some jb.2) (path ++ [idxSeg jb.1])

/-- The matched children with the path rewritten to the `a`-side index
(diff.go lines 307-318). -/
def valueMatchedChildren (cmp : Option SD → Option SD → List String → DiffResult)
    (a b : SD) (path : List String) : List DiffResult :=
  (valueSelection cmp a b).1.map fun m => m.diff.withPath (path ++ [idxSeg m.indexA])

/-- `compareArraysByValue` of diff.go. -/
def compareArraysByValueW (cmp : Option SD → Option SD → List String → DiffResult)
    (a b : SD) (path : List String) : DiffResult :=
  let delChildren := valueDelChildren cmp a b path
  let addChildren := valueAddChildren cmp a b path
  let matchedChildren := valueMatchedChildren cmp a b path
  let children := delChildren ++ addChildren ++ matchedChildren
  let status :=
    if delChildren.isEmpty && addChildren.isEmpty &&
        (matchedChildren.all fun c => c.status == .same) then
      DiffStatus.same
    else .modified
  let count := (delChildren.map (·.cost)).sum + (addChildren.map (·.cost)).sum +
    (matchedChildren.map fun c => if c.status != .same then c.cost else 0).sum
  .mk status path (some a) (some b) children (some ⟨count⟩)

/-- `sort.Strings`. -/
def sortStrings (l : List String) : List String :=
  l.insertionSort fun a b => strLe a b

/-- The sorted union of the key sets of two objects (the Go map-union and
`sort.Strings` of `compareObjects`). -/
def unionKeys (a b : SD) : List String :=
  sortStrings ((a.children.map Prod.fst ++ b.children.map Prod.fst).dedup)

/-- Go map indexing `d.Children[k]`. -/
def lookupChild (d : SD) (k : String) : Option SD := d.children.lookup k

/-- The Go loop `for k := range children { keyMap[strings.ToLower(k)] = k }`:
per lowercase key the map retains the key written last.  Go map iteration
order is randomized, and `compareObjectsIgnoreCase` runs this loop
independently for the two sides, so on case-colliding keys the surviving
original key is nondeterministic and the sides can disagree; the model
fixes both to the association-list order (one deterministic choice). -/
def lowerKeyOrig (cs : List (String × SD)) (lk : String) : Option String :=
  ((cs.map Prod.fst).filter fun k => goToLower k == lk).getLast?

/-- `compareObjectsIgnoreCase` of diff.go, parameterized by the child
comparator. -/
def compareObjectsIgnoreCaseW (e : DiffOptions)
    (cmp : Option SD → Option SD → List String → DiffResult)
    (a b : SD) (path : List String) : DiffResult :=
  let lowerKeys := sortStrings
    (((a.children.map Prod.fst ++ b.children.map Prod.fst).map goToLower).dedup)
  let active := lowerKeys.filter fun lk =>
    let childA := (lowerKeyOrig a.children lk).bind (lookupChild a)
    let childB := (lowerKeyOrig b.children lk).bind (lookupChild b)
    !(shouldIgnore e childA && shouldIgnore e childB)
  let children := active.map fun lk =>
    let origA := lowerKeyOrig a.children lk
    let origB := lowerKeyOrig b.children lk
    let displayKey₀ := match origA with | some k => k | none => ""
    let displayKey := if origB.isSome && displayKey₀ == "" then origB.getD "" else displayKey₀
    cmp (origA.bind (lookupChild a)) (origB.bind (lookupChild b)) (path ++ [displayKey])
  .mk (accumStatus children) path (some a) (some b) children (some ⟨accumCount children⟩)

/-- `compareObjects` of diff.go, parameterized by the child comparator:
union the keys, skip a key when both sides satisfy `shouldIgnore`, compare
the rest in sorted key order. -/
def compareObjectsW (e : DiffOptions)
    (cmp : Option SD → Option SD → List String → DiffResult)
    (a b : SD) (path : List String) : DiffResult :=
  if e.ignoreKeyCase then compareObjectsIgnoreCaseW e cmp a b path
  else
    let active := (unionKeys a b).filter fun k =>
      !(shouldIgnore e (lookupChild a k) && shouldIgnore e (lookupChild b k))
    let children := active.map fun k =>
      cmp (lookupChild a k) (lookupChild b k) (path ++ [k])
    .mk (accumStatus children) path (some a) (some b) children (some ⟨accumCount children⟩)

/-- `compareMultilineStrings` of diff.go: split both strings on `"\n"`,
run the index-strategy array comparison on the synthetic line arrays
(the function forces `ArrayStrategyIndex` regardless of the configured
strategy), keep the original strings as `From`/`To`, and — only when the
line comparison found a difference — attach the line children with their
final `"[i]"` segment relabelled to `"line i"`. -/
def compareMultilineStringsW (e : DiffOptions) (a b : SD) (s t : String)
    (path : List String) : DiffResult :=
  let aLines := goSplitLines s
  let bLines := goSplitLines t
  let maxLen := max aLines.length bLines.length
  let lineChildren := (List.range maxLen).map fun i =>
    compareLinePair e aLines[i]? bLines[i]? (path ++ [idxSeg i])
  let st := accumStatus lineChildren
  let children :=
    if st != .same && lineChildren.length > 0 then
      lineChildren.map fun c => c.withPath (relabelLineSeg c.path)
    else []
  .mk st path (some a) (some b) children (some ⟨accumCount lineChildren⟩)

/-- `compareWithPath` of diff.go, with fuel as the structural recursion
argument.  Fuel 0 (never reached when the fuel exceeds the combined
`sizeOf` of the inputs) returns a childless `Same` node. -/
def compareCore (e : DiffOptions) : Nat → Option SD → Option SD → List String → DiffResult
  | 0, a, b, p => .mk .same p a b [] none
  | _ + 1, none, none, p => .mk .same p none none [] none
  | n + 1, none, some b, p => .mk .added p none (some b) [] (some ⟨calcSize n (some b)⟩)
  | n + 1, some a, none, p => .mk .deleted p (some a) none [] (some ⟨calcSize n (some a)⟩)
  | n + 1, some a, some b, p =>
    if a.typ != b.typ then
      .mk .modified p (some a) (some b) []
        (some ⟨calcSize n (some a) + calcSize n (some b)⟩)
    else
      match a.typ with
      | .typeNull => .mk .same p (some a) (some b) [] none
      | .typeBool =>
        if a.value == b.value then .mk .same p (some a) (some b) [] none
        else .mk .modified p (some a) (some b) [] (some ⟨1⟩)
      | .typeString =>
        if shouldDoLineDiff a b then
          match a.value, b.value with
          | .vStr s, .vStr t => compareMultilineStringsW e a b s t p
          | _, _ => .mk .same p (some a) (some b) [] none
            -- unreachable: `shouldDoLineDiff` verified both payloads are strings
        else if stringPayloadEqual e a.value b.value then
          .mk .same p (some a) (some b) [] none
        else .mk .modified p (some a) (some b) [] (some ⟨1⟩)
      | .typeNumber =>
        if equalNumbers a.value b.value then .mk .same p (some a) (some b) [] none
        else .mk .modified p (some a) (some b) [] (some ⟨1⟩)
      | .typeArray =>
        if e.arrayDiffStrategy == .value then
          compareArraysByValueW (fun x y q => compareCore e n x y q) a b p
        else
          compareArraysByIndexW (fun x y q => compareCore e n x y q) a b p
      | .typeObject => compareObjectsW e (fun x y q => compareCore e n x y q) a b p

/-- `(*DiffEngine).Compare` of diff.go: compare at the empty path. -/
def engineCompare (e : DiffOptions) (fuel : Nat) (a b : Option SD) : DiffResult :=
  compareCore e fuel a b []

/-! ## Kubernetes-style mismatch penalty (diff.go) -/

/-- `fieldValuesMatch` of diff.go: same presence, same `Type`, and Go
interface equality of the `Value` payloads. -/
def fieldValuesMatch (a b : SD) (fieldName : String) : Bool :=
  match lookupChild a fieldName, lookupChild b fieldName with
  | none, none => true
  | some _, none => false
  | none, some _ => false
  | some fa, some fb => fa.typ == fb.typ && fa.value == fb.value

/-- `metadataFieldValuesMatch` of diff.go. -/
def metadataFieldValuesMatch (a b : SD) (fieldName : String) : Bool :=
  match lookupChild a "metadata", lookupChild b "metadata" with
  | none, none => true
  | some _, none => false
  | none, some _ => false
  | some ma, some mb =>
    if ma.typ == .typeObject && mb.typ == .typeObject then
      fieldValuesMatch ma mb fieldName
    else false

/-- `calculateResourceMismatchPenalty` of diff.go: `1 << 20` for a `kind`
mismatch, 50 for `apiVersion`, 10 for `metadata.name`, 5 for
`metadata.namespace`; 0 when either side is not an object or neither has
a `kind` field. -/
def calculateResourceMismatchPenalty : Option SD → Option SD → Int
  | none, _ => 0
  | some _, none => 0
  | some a, some b =>
    if a.typ != .typeObject || b.typ != .typeObject then 0
    else if !(lookupChild a "kind").isSome && !(lookupChild b "kind").isSome then 0
    else
      (if !fieldValuesMatch a b "kind" then (2 ^ 20 : Int) else 0) +
      (if !fieldValuesMatch a b "apiVersion" then 50 else 0) +
      (if !metadataFieldValuesMatch a b "name" then 10 else 0) +
      (if !metadataFieldValuesMatch a b "namespace" then 5 else 0)

/-! ## Hungarian assignment (diff.go `hungarianAlgorithm`) -/

/-- One pass of the inner `for j := 1; j <= n; j++` scan of the Hungarian
algorithm: update `minv`/`way` at every unused column and track the
minimum reduced cost `delta` and its first column `j1`. -/
def hungScan (cost : Nat → Nat → Int) (n i0 j0 : Nat) (u v : List Int)
    (used : List Bool) (minv : List Int) (way : List Nat) :
    List Int × List Nat × Int × Nat :=
  (List.range' 1 n).foldl
    (fun st j =>
      let minv := st.1
      let way := st.2.1
      let delta := st.2.2.1
      let j1 := st.2.2.2
      if used.getD j false then st
      else
        let cur := cost (i0 - 1) (j - 1) - u.getD i0 0 - v.getD j 0
        let minv' := if cur < minv.getD j 0 then minv.set j cur else minv
        let way' := if cur < minv.getD j 0 then way.set j j0 else way
        if minv'.getD j 0 < delta then (minv', way', minv'.getD j 0, j)
        else (minv', way', delta, j1))
    (minv, way, (2 ^ 30 : Int), 0)

/-- The potential-update loop `for j := 0; j <= n; j++` of the Hungarian
algorithm. -/
def hungUpdate (n : Nat) (p : List Nat) (used : List Bool) (delta : Int)
    (u v minv : List Int) : List Int × List Int × List Int :=
  (List.range (n + 1)).foldl
    (fun st j =>
      let u := st.1
      let v := st.2.1
      let minv := st.2.2
      if used.getD j false then
        (u.set (p.getD j 0) (u.getD (p.getD j 0) 0 + delta),
         v.set j (v.getD j 0 - delta), minv)
      else (u, v, minv.set j (minv.getD j 0 - delta)))
    (u, v, minv)

/-- The augmenting-path loop `for p[j0] != 0` (fuelled; it runs at most
`n + 1` times since each pass marks a fresh column used). -/
def hungAugment (cost : Nat → Nat → Int) (n : Nat) :
    Nat → List Int → List Int → List Nat → List Nat → List Int → List Bool →
    Nat → List Int × List Int × List Nat × List Nat × Nat
  | 0, u, v, p, way, _, _, j0 => (u, v, p, way, j0)
  | fuel + 1, u, v, p, way, minv, used, j0 =>
    if p.getD j0 0 ≠ 0 then
      let used' := used.set j0 true
      let i0 := p.getD j0 0
      let scan := hungScan cost n i0 j0 u v used' minv way
      let minv' := scan.1
      let way' := scan.2.1
      let delta := scan.2.2.1
      let j1 := scan.2.2.2
      let upd := hungUpdate n p used' delta u v minv'
      hungAugment cost n fuel upd.1 upd.2.1 p way' upd.2.2 used' j1
    else (u, v, p, way, j0)

/-- The path-reconstruction loop `for j0 != 0` (fuelled; the `way` links
form a path of length at most `n + 1`). -/
def hungReconstruct : Nat → List Nat → List Nat → Nat → List Nat
  | 0, p, _, _ => p
  | fuel + 1, p, way, j0 =>
    if j0 ≠ 0 then
      let j1 := way.getD j0 0
      hungReconstruct fuel (p.set j0 (p.getD j1 0)) way j1
    else p

/-- One iteration of the outer `for i := 1; i <= n; i++` row loop. -/
def hungarianRow (cost : Nat → Nat → Int) (n : Nat)
    (st : List Int × List Int × List Nat × List Nat) (i : Nat) :
    List Int × List Int × List Nat × List Nat :=
  let p := st.2.2.1.set 0 i
  let minv := List.replicate (n + 1) ((2 ^ 30 : Int))
  let used := List.replicate (n + 1) false
  let r := hungAugment cost n (n + 2) st.1 st.2.1 p st.2.2.2 minv used 0
  let p' := hungReconstruct (n + 2) r.2.2.1 r.2.2.2.1 r.2.2.2.2
  (r.1, r.2.1, p', r.2.2.2.1)

/-- `hungarianAlgorithm` of diff.go: minimum-cost perfect assignment on a
square matrix; `assignment[i]` is the column assigned to row `i`. -/
def hungarianAlgorithm (costMatrix : List (List Int)) : List Nat :=
  let n := costMatrix.length
  if n = 0 then []
  else
    let cost := fun i j => (costMatrix.getD i []).getD j 0
    let init := (List.replicate (n + 1) (0 : Int), List.replicate (n + 1) (0 : Int),
                 List.replicate (n + 1) (0 : Nat), List.replicate (n + 1) (0 : Nat))
    let fin := (List.range' 1 n).foldl (fun st i => hungarianRow cost n st i) init
    let p := fin.2.2.1
    (List.range' 1 n).foldl
      (fun assignment j =>
        if p.getD j 0 ≠ 0 then assignment.set (p.getD j 0 - 1) (j - 1) else assignment)
      (List.replicate n 0)

/-! ## Multi-document Compare (diff.go) and HasDifferences (controller.go) -/

/-- The package-level `Compare` of diff.go: direct comparison for a
single document on each side; otherwise the `(|A|+|B|)²` cost matrix
(pairings with the resource-mismatch penalty, diagonal deletions and
additions guarded by `1 << 30` sentinels, zero dummy-dummy quadrant),
one Hungarian solve, and result reconstruction. -/
def Compare (docsA docsB : List SD) (options : DiffOptions) (fuel : Nat) :
    List DiffResult :=
  if docsA.length = 1 ∧ docsB.length = 1 then
    [engineCompare options fuel (docsA[0]?) (docsB[0]?)]
  else
    let lenA := docsA.length
    let lenB := docsB.length
    let n := lenA + lenB
    if n = 0 then []
    else
      let diffResults := docsA.map fun dA => docsB.map fun dB =>
        engineCompare options fuel (some dA) (some dB)
      let deleteDiffs := docsA.map fun dA => engineCompare options fuel (some dA) none
      let addDiffs := docsB.map fun dB => engineCompare options fuel none (some dB)
      let costMatrix := (List.range n).map fun i => (List.range n).map fun j =>
        if i < lenA then
          if j < lenB then
            Int.ofNat ((diffResults.getD i []).getD j default).cost +
              calculateResourceMismatchPenalty docsA[i]? docsB[j]?
          else if j - lenB = i then Int.ofNat (deleteDiffs.getD i default).cost
          else (2 ^ 30 : Int)
        else
          if j < lenB then
            if i - lenA = j then Int.ofNat (addDiffs.getD j default).cost
            else (2 ^ 30 : Int)
          else 0
      let assignment := hungarianAlgorithm costMatrix
      let results := (List.range lenA).map fun i =>
        let j := assignment.getD i 0
        if j < lenB then (diffResults.getD i []).getD j default
        else deleteDiffs.getD i default
      let additions := ((List.range lenB).filter fun j =>
        !((List.range lenA).any fun i => assignment.getD i 0 == j)).map
        fun j => addDiffs.getD j default
      results ++ additions

/-- `HasDifferences` of controller.go: some root status differs. -/
def HasDifferences (results : List DiffResult) : Bool :=
  results.any fun r => r.status != .same

/-! ## Context windower (unified formatter, part_000) -/

/-- A rendering decision of the context windower: an elision marker (the
`"..."` separator line) or the rendering of the sibling at an index. -/
inductive RenderEvent where
  | sep
  | child (i : Nat)
deriving DecidableEq, Repr

/-- `hasChangedDescendants` of the unified formatter (fuelled). -/
def hasChangedDescendants : Nat → DiffResult → Bool
  | 0, _ => false
  | n + 1, d => d.status != .same || d.children.any (hasChangedDescendants n)

/-- The anchor indices of `formatChildrenWithContext` (part_000 lines
366-372): positions whose subtree contains a non-`Same` node. -/
def changedIndices (fuel : Nat) (children : List DiffResult) : List Nat :=
  (children.enum.filter fun ic =>
    ic.2.status != .same || hasChangedDescendants fuel ic.2).map Prod.fst

/-- The `showChild` marking loops (part_000 lines 379-393): a sibling is
shown iff it is an anchor or within `ContextLines` positions of one (the
in-bounds clipping is implicit, indices being taken from the sibling
range). -/
def showChildAt (contextLines : Int) (changed : List Nat) (i : Nat) : Bool :=
  changed.any fun idx =>
    i == idx || (((i : Int) - (idx : Int)).natAbs : Int) ≤ contextLines

/-- The emission loop of `formatChildrenWithContext` (part_000 lines
395-412): each shown sibling is rendered (`child i`), preceded by a
`sep` marker when the previous sibling was not shown and the index is
positive. -/
def emitEvents (vis : Nat → Bool) (len : Nat) : List RenderEvent :=
  ((List.range len).foldl
    (fun (st : List RenderEvent × Bool) i =>
      if vis i then
        (st.1 ++ (if !st.2 && i > 0 then [RenderEvent.sep] else []) ++
          [RenderEvent.child i], true)
      else (st.1, false))
    ([], false)).1

/-- `formatChildrenWithContext` of the unified formatter, abstracted to
its sequence of rendering decisions; the Go function then calls
`formatDiff` on each rendered child, which does not influence the
decisions. -/
def formatChildrenWithContextEvents (contextLines : Int) (fuel : Nat)
    (children : List DiffResult) : List RenderEvent :=
  let changed := changedIndices fuel children
  if changed.isEmpty then []
  else emitEvents (showChildAt contextLines changed) children.length

/-! ## Basic lemmas about the embedding -/

@[simp] theorem DiffResult.status_mk (s p f t cs m) :
    (DiffResult.mk s p f t cs m).status = s := rfl

@[simp] theorem DiffResult.path_mk (s p f t cs m) :
    (DiffResult.mk s p f t cs m).path = p := rfl

@[simp] theorem DiffResult.fromV_mk (s p f t cs m) :
    (DiffResult.mk s p f t cs m).fromV = f := rfl

@[simp] theorem DiffResult.toV_mk (s p f t cs m) :
    (DiffResult.mk s p f t cs m).toV = t := rfl

@[simp] theorem DiffResult.children_mk (s p f t cs m) :
    (DiffResult.mk s p f t cs m).children = cs := rfl

@[simp] theorem DiffResult.meta_mk (s p f t cs m) :
    (DiffResult.mk s p f t cs m).meta = m := rfl

@[simp] theorem DiffResult.withPath_status (d : DiffResult) (p : List String) :
    (d.withPath p).status = d.status := by cases d <;> rfl

@[simp] theorem DiffResult.withPath_children (d : DiffResult) (p : List String) :
    (d.withPath p).children = d.children := by cases d <;> rfl

@[simp] theorem DiffResult.withPath_path (d : DiffResult) (p : List String) :
    (d.withPath p).path = p := by cases d <;> rfl

@[simp] theorem DiffResult.withPath_cost (d : DiffResult) (p : List String) :
    (d.withPath p).cost = d.cost := by cases d <;> rfl

@[simp] theorem SD.typ_mk (t v cs es) : (SD.mk t v cs es).typ = t := rfl

@[simp] theorem SD.value_mk (t v cs es) : (SD.mk t v cs es).value = v := rfl

@[simp] theorem SD.childrenOfMk (t v cs es) : (SD.mk t v cs es).children = cs := rfl

@[simp] theorem SD.elements_mk (t v cs es) : (SD.mk t v cs es).elements = es := rfl

/-- Node membership in a `DiffResult` tree (root included). -/
inductive InTree : DiffResult → DiffResult → Prop
  | refl (r : DiffResult) : InTree r r
  | step {d c r : DiffResult} : c ∈ r.children → InTree d c → InTree d r

theorem inTree_iff {d r : DiffResult} :
    InTree d r ↔ d = r ∨ ∃ c ∈ r.children, InTree d c := by
  constructor
  · intro h
    cases h with
    | refl => exact Or.inl rfl
    | step hc hd => exact Or.inr ⟨_, hc, hd⟩
  · rintro (rfl | ⟨c, hc, hd⟩)
    · exact .refl _
    · exact .step hc hd

@[simp] theorem compareArraysByIndexW_path (cmp a b p) :
    (compareArraysByIndexW cmp a b p).path = p := rfl

@[simp] theorem compareArraysByValueW_path (cmp a b p) :
    (compareArraysByValueW cmp a b p).path = p := rfl

@[simp] theorem compareObjectsIgnoreCaseW_path (e cmp a b p) :
    (compareObjectsIgnoreCaseW e cmp a b p).path = p := rfl

@[simp] theorem compareObjectsW_path (e cmp a b p) :
    (compareObjectsW e cmp a b p).path = p := by
  unfold compareObjectsW
  split
  · exact compareObjectsIgnoreCaseW_path ..
  · rfl

@[simp] theorem compareMultilineStringsW_path (e a b s t p) :
    (compareMultilineStringsW e a b s t p).path = p := rfl

/-- Every branch of the comparator stores the path it was handed. -/
theorem compareCore_path (e : DiffOptions) (fuel : Nat) (a b : Option SD)
    (p : List String) : (compareCore e fuel a b p).path = p := by
  match fuel, a, b with
  | 0, a, b => rfl
  | _ + 1, none, none => rfl
  | _ + 1, none, some b => rfl
  | _ + 1, some a, none => rfl
  | n + 1, some a, some b =>
    show DiffResult.path (if _ then _ else _) = _
    (repeat' split) <;> simp

theorem accumStatus_same {children : List DiffResult}
    (h : accumStatus children = .same) : ∀ c ∈ children, c.status = .same := by
  intro c hc
  by_contra hne
  have : children.any (fun c => c.status != .same) = true :=
    List.any_eq_true.mpr ⟨c, hc, by simpa using hne⟩
  simp [accumStatus, this] at h

theorem accumStatus_of_all {children : List DiffResult}
    (h : ∀ c ∈ children, c.status = .same) : accumStatus children = .same := by
  have : children.any (fun c => c.status != .same) = false := by
    simp only [List.any_eq_false]
    intro c hc
    simp [h c hc]
  simp [accumStatus, this]

theorem accumCount_of_all {children : List DiffResult}
    (h : ∀ c ∈ children, c.status = .same) : accumCount children = 0 := by
  unfold accumCount
  rw [List.sum_eq_zero]
  intro x hx
  obtain ⟨c, hc, rfl⟩ := List.mem_map.mp hx
  simp [h c hc]

theorem lookup_mem {k : String} {x : SD} :
    ∀ {l : List (String × SD)}, l.lookup k = some x → (k, x) ∈ l := by
  intro l
  induction l with
  | nil => intro h; simp [List.lookup] at h
  | cons kv rest ih =>
    intro h
    rw [List.lookup_cons] at h
    split at h
    · rename_i heq
      obtain rfl : kv.2 = x := by cases h; rfl
      have hk : k = kv.1 := by simpa using heq
      subst hk
      cases kv
      exact List.mem_cons_self _ _
    · exact List.mem_cons_of_mem _ (ih h)

theorem sizeOf_lookup {k : String} {x : SD} {d : SD}
    (h : (lookupChild d k) = some x) : sizeOf x < sizeOf d := by
  have hm := lookup_mem h
  have h1 : sizeOf (k, x) < sizeOf d.children := List.sizeOf_lt_of_mem hm
  have h2 : sizeOf x < sizeOf (k, x) := by simp
  cases d with
  | mk t v cs es =>
    simp only [SD.childrenOfMk] at h1
    simp only [SD.mk.sizeOf_spec]
    omega

theorem sizeOf_element {x : SD} {d : SD} (h : x ∈ d.elements) :
    sizeOf x < sizeOf d := by
  have h1 : sizeOf x < sizeOf d.elements := List.sizeOf_lt_of_mem h
  cases d with
  | mk t v cs es =>
    simp only [SD.elements_mk] at h1
    simp only [SD.mk.sizeOf_spec]
    omega

theorem sizeOf_sd_pos (d : SD) : 0 < sizeOf d := by
  cases d with
  | mk t v cs es => simp only [SD.mk.sizeOf_spec]; omega

/-! ## Claim C1: kind-mismatch penalty and document pairing -/

def podX : SD := .mk .typeObject .vNone [("kind", lineSD "Pod"), ("name", lineSD "x")] []

def svcY : SD := .mk .typeObject .vNone [("kind", lineSD "Service"), ("name", lineSD "y")] []

def svcY2 : SD := .mk .typeObject .vNone [("kind", lineSD "Service"), ("name", lineSD "y2")] []

def podX2 : SD := .mk .typeObject .vNone [("kind", lineSD "Pod"), ("name", lineSD "x2")] []

/-- C1: for `A = [{kind:"Pod",name:"x"}, {kind:"Service",name:"y"}]` and
`B` its permutation with one field changed in each document, the
multi-document `Compare` pairs each `A`-document with the `B`-document of
the same `kind` (first conjunct, the minimum-cost assignment on the
penalized matrix), because `calculateResourceMismatchPenalty` adds at
least `2^20` to the cost of any pairing of two objects, at least one
carrying a `kind` field, whose `kind` values differ (second conjunct). -/
theorem kind_penalty_forces_same_kind_pairing :
    ((Compare [podX, svcY] [svcY2, podX2] {} 10).map fun r => (r.fromV, r.toV)) =
      [(some podX, some podX2), (some svcY, some svcY2)] ∧
    ∀ a b : SD, a.typ = .typeObject → b.typ = .typeObject →
      ((lookupChild a "kind").isSome ∨ (lookupChild b "kind").isSome) →
      fieldValuesMatch a b "kind" = false →
      (2 ^ 20 : Int) ≤ calculateResourceMismatchPenalty (some a) (some b) := by
  constructor
  · rfl
  · intro a b ha hb hkind hmatch
    show (2 ^ 20 : Int) ≤ (if _ then (0:Int) else _)
    rw [if_neg (by simp [ha, hb])]
    rw [if_neg (by rcases hkind with h | h <;> simp [h])]
    rw [hmatch]
    have h2 : (0:Int) ≤ if !fieldValuesMatch a b "apiVersion" then (50:Int) else 0 := by
      split <;> omega
    have h3 : (0:Int) ≤ if !metadataFieldValuesMatch a b "name" then (10:Int) else 0 := by
      split <;> omega
    have h4 : (0:Int) ≤ if !metadataFieldValuesMatch a b "namespace" then (5:Int) else 0 := by
      split <;> omega
    simp only [Bool.not_false, if_pos]
    omega

/-- Witness for C1 at the concrete cross-kind document pair. -/
theorem kind_penalty_forces_same_kind_pairing_witness :
    (2 ^ 20 : Int) ≤ calculateResourceMismatchPenalty (some podX) (some svcY) :=
  kind_penalty_forces_same_kind_pairing.2 podX svcY rfl rfl
    (Or.inl (by decide)) (by decide)

/-! ## Claim C3: numeric equality rule -/

/-- The payload is one of the numeric payloads a `Number` node holds. -/
def GoValue.isNumeric : GoValue → Bool
  | .vInt _ => true
  | .vFloat _ => true
  | _ => false

/-- Modelled from the spec (§3): the integer value of an integral payload
— an integer payload, or a float payload holding an integer value. -/
def specIntegralValue : GoValue → Option Int
  | .vInt n => some n
  | .vFloat (.val q) => if q.den = 1 then some q.num else none
  | _ => none

/-- Modelled from the spec (§3): if both sides are integral they are
compared by exact integer equality, otherwise by floating-point
equality. -/
def specNumEq (x y : GoValue) : Bool :=
  match specIntegralValue x, specIntegralValue y with
  | some a, some b => a == b
  | _, _ => GoFloat.feq (toFloat64 x) (toFloat64 y)

/-- The payload is not an integer of magnitude 2^53 or more — the range
where Go's int-to-float64 conversion is exact. -/
def GoValue.intExact : GoValue → Bool
  | .vInt n => decide (n.natAbs < 2 ^ 53)
  | _ => true

theorem roundFloat64Int_small {n : Int} (h : n.natAbs < 2 ^ 53) :
    roundFloat64Int n = n := by
  simp only [roundFloat64Int]
  rw [if_pos h]

theorem toInt64_float_int {q : Rat} (hd : q.den = 1)
    (hr : -(2 ^ 63) ≤ q.num ∧ q.num < 2 ^ 63) :
    toInt64 (.vFloat (.val q)) = some q.num := by
  show (if q.den = 1 ∧ -(2 ^ 63) ≤ q.num ∧ q.num < 2 ^ 63 then some q.num else none) = _
  rw [if_pos ⟨hd, hr.1, hr.2⟩]

theorem toInt64_float_none {q : Rat}
    (h : ¬(q.den = 1 ∧ -(2 ^ 63) ≤ q.num ∧ q.num < 2 ^ 63)) :
    toInt64 (.vFloat (.val q)) = none := by
  show (if q.den = 1 ∧ -(2 ^ 63) ≤ q.num ∧ q.num < 2 ^ 63 then some q.num else none) = _
  rw [if_neg h]

theorem specIntegralValue_float_int {q : Rat} (hd : q.den = 1) :
    specIntegralValue (.vFloat (.val q)) = some q.num := by
  show (if q.den = 1 then some q.num else none) = _
  rw [if_pos hd]

theorem specIntegralValue_float_none {q : Rat} (hd : ¬q.den = 1) :
    specIntegralValue (.vFloat (.val q)) = none := by
  show (if q.den = 1 then some q.num else none) = _
  rw [if_neg hd]

/-- Boolean equality of two integral rationals is integer equality of
their numerators. -/
theorem rat_beq_of_den_one {q1 q2 : Rat} (hd1 : q1.den = 1) (hd2 : q2.den = 1) :
    ((q1 == q2) : Bool) = (q1.num == q2.num) := by
  by_cases h : q1.num = q2.num
  · have he : q1 = q2 := by
      rw [← Rat.coe_int_num_of_den_eq_one hd1, ← Rat.coe_int_num_of_den_eq_one hd2, h]
    simp [he, h]
  · have h2 : q1 ≠ q2 := by
      intro he
      exact h (by rw [he])
    rw [beq_eq_false_iff_ne.mpr h2, beq_eq_false_iff_ne.mpr h]

theorem intCast_beq_rat {a : Int} {q : Rat} (hq : q.den = 1) :
    (((a : Rat) == q) : Bool) = (a == q.num) := by
  have h := rat_beq_of_den_one (Rat.den_intCast a) hq
  rwa [Rat.num_intCast] at h

theorem rat_beq_intCast {a : Int} {q : Rat} (hq : q.den = 1) :
    ((q == (a : Rat)) : Bool) = (q.num == a) := by
  have h := rat_beq_of_den_one hq (Rat.den_intCast a)
  rwa [Rat.num_intCast] at h

/-- `equalNumbers` computes exactly the spec rule on numeric payloads:
the code's integrality test also checks the int64 range, but for integral
values that fail it, exact float equality and integer equality agree, so
the two rules coincide. -/
theorem equalNumbers_eq_specNumEq {x y : GoValue}
    (hx : x.isNumeric = true) (hy : y.isNumeric = true)
    (hxe : x.intExact = true) (hye : y.intExact = true) :
    equalNumbers x y = specNumEq x y := by
  cases x with
  | vNone => simp [GoValue.isNumeric] at hx
  | vBool b => simp [GoValue.isNumeric] at hx
  | vStr s => simp [GoValue.isNumeric] at hx
  | vInt a =>
    cases y with
    | vNone => simp [GoValue.isNumeric] at hy
    | vBool b => simp [GoValue.isNumeric] at hy
    | vStr s => simp [GoValue.isNumeric] at hy
    | vInt b => rfl
    | vFloat f =>
      cases f with
      | nan => rfl
      | val q =>
        unfold equalNumbers specNumEq
        by_cases hd : q.den = 1
        · by_cases hr : -(2 ^ 63) ≤ q.num ∧ q.num < 2 ^ 63
          · rw [toInt64_float_int hd hr, specIntegralValue_float_int hd]
            try rfl
          · rw [toInt64_float_none (by tauto), specIntegralValue_float_int hd]
            have ha : a.natAbs < 2 ^ 53 := by simpa [GoValue.intExact] using hxe
            show ((roundFloat64Int a : Rat) == q) = (a == q.num)
            rw [roundFloat64Int_small ha]
            exact intCast_beq_rat hd
        · rw [toInt64_float_none (by tauto), specIntegralValue_float_none hd]
          try rfl
  | vFloat f =>
    cases f with
    | nan =>
      cases y with
      | vNone => simp [GoValue.isNumeric] at hy
      | vBool b => simp [GoValue.isNumeric] at hy
      | vStr s => simp [GoValue.isNumeric] at hy
      | vInt b => rfl
      | vFloat g => cases g with | nan => rfl | val q => rfl
    | val q =>
      cases y with
      | vNone => simp [GoValue.isNumeric] at hy
      | vBool b => simp [GoValue.isNumeric] at hy
      | vStr s => simp [GoValue.isNumeric] at hy
      | vInt b =>
        unfold equalNumbers specNumEq
        by_cases hd : q.den = 1
        · by_cases hr : -(2 ^ 63) ≤ q.num ∧ q.num < 2 ^ 63
          · rw [toInt64_float_int hd hr, specIntegralValue_float_int hd]
            try rfl
          · rw [toInt64_float_none (by tauto), specIntegralValue_float_int hd]
            have hb : b.natAbs < 2 ^ 53 := by simpa [GoValue.intExact] using hye
            show ((q : Rat) == (roundFloat64Int b : Rat)) = (q.num == b)
            rw [roundFloat64Int_small hb]
            exact rat_beq_intCast hd
        · rw [toInt64_float_none (by tauto), specIntegralValue_float_none hd]
          try rfl
      | vFloat g =>
        cases g with
        | nan =>
          unfold equalNumbers specNumEq
          by_cases hd : q.den = 1
          · by_cases hr : -(2 ^ 63) ≤ q.num ∧ q.num < 2 ^ 63
            · rw [toInt64_float_int hd hr, specIntegralValue_float_int hd]
              try rfl
            · rw [toInt64_float_none (by tauto), specIntegralValue_float_int hd]
              try rfl
          · rw [toInt64_float_none (by tauto), specIntegralValue_float_none hd]
            try rfl
        | val q2 =>
          unfold equalNumbers specNumEq
          by_cases hd1 : q.den = 1
          · by_cases hd2 : q2.den = 1
            · by_cases hr1 : -(2 ^ 63) ≤ q.num ∧ q.num < 2 ^ 63
              · by_cases hr2 : -(2 ^ 63) ≤ q2.num ∧ q2.num < 2 ^ 63
                · rw [toInt64_float_int hd1 hr1, toInt64_float_int hd2 hr2,
                    specIntegralValue_float_int hd1, specIntegralValue_float_int hd2]
                · rw [toInt64_float_int hd1 hr1, toInt64_float_none (by tauto),
                    specIntegralValue_float_int hd1, specIntegralValue_float_int hd2]
                  show ((q == q2) : Bool) = (q.num == q2.num)
                  exact rat_beq_of_den_one hd1 hd2
              · rw [toInt64_float_none (by tauto), specIntegralValue_float_int hd1,
                  specIntegralValue_float_int hd2]
                show ((q == q2) : Bool) = (q.num == q2.num)
                exact rat_beq_of_den_one hd1 hd2
            · by_cases hr1 : -(2 ^ 63) ≤ q.num ∧ q.num < 2 ^ 63
              · rw [toInt64_float_int hd1 hr1, toInt64_float_none (by tauto),
                  specIntegralValue_float_int hd1, specIntegralValue_float_none hd2]
                try rfl
              · rw [toInt64_float_none (q := q) (by tauto), toInt64_float_none (by tauto),
                  specIntegralValue_float_int hd1, specIntegralValue_float_none hd2]
                try rfl
          · rw [toInt64_float_none (by tauto), specIntegralValue_float_none hd1]
            try rfl

/-- C3 counterexample: the integers 2^63 - 1 (decoder-producible as
int64/uint64) and the float 2^63.0 are distinct under the claimed rule
(both are integral, and the integers differ), yet the engine reports
`Same`: the float fails `toInt64`'s round-trip test, the comparison falls
back to floats, and Go's `float64(2^63 - 1)` rounds to exactly 2^63. -/
theorem number_compare_rounded_int_same :
    (compareCore {} 1 (some (.mk .typeNumber (.vInt (2 ^ 63 - 1)) [] []))
        (some (.mk .typeNumber (.vFloat (.val (2 ^ 63))) [] [])) []).status = .same ∧
    specNumEq (.vInt (2 ^ 63 - 1)) (.vFloat (.val (2 ^ 63))) = false := by
  exact ⟨by decide, by decide⟩

/-- C3 (corrected): comparing two `Number` values whose integer payloads
have magnitude below 2^53 (the exact range of float64) reports `Same`
exactly when the payloads are equal under the spec rule — exact integer
equality when both are integral (integer payloads or integer-valued
floats), floating-point equality otherwise; in particular `Number(42)`
and `Number(42.0)` compare `Same`.  Beyond 2^53 the rule fails: Go's
int-to-float64 conversion rounds, so the engine can report `Same` for
distinct integral values (see the 2^63 - 1 versus 2^63.0
counterexample). -/
theorem number_compare_same_iff_spec_rule :
    (∀ (e : DiffOptions) (fuel : Nat) (p : List String) (x y : GoValue),
      x.isNumeric = true → y.isNumeric = true →
      x.intExact = true → y.intExact = true → 1 ≤ fuel →
      ((compareCore e fuel (some (.mk .typeNumber x [] []))
          (some (.mk .typeNumber y [] [])) p).status = .same ↔
        specNumEq x y = true)) ∧
    (compareCore {} 1 (some (.mk .typeNumber (.vInt 42) [] []))
        (some (.mk .typeNumber (.vFloat (.val 42)) [] [])) []).status = .same := by
  constructor
  · intro e fuel p x y hx hy hxe hye hfuel
    match fuel, hfuel with
    | m + 1, _ =>
      show (DiffResult.status (if _ then _ else _) = _) ↔ _
      rw [if_neg (by simp)]
      show (DiffResult.status (if equalNumbers x y then _ else _) = _) ↔ _
      rw [equalNumbers_eq_specNumEq hx hy hxe hye]
      split
      · rename_i hsp
        simpa using hsp
      · rename_i hsp
        simp only [DiffResult.status_mk]
        constructor
        · intro h; cases h
        · intro h; exact absurd h hsp
  · decide

/-- Witness for C3 at `Number(42)` vs `Number(42.0)`. -/
theorem number_compare_same_iff_spec_rule_witness :
    (compareCore {} 1 (some (.mk .typeNumber (.vInt 42) [] []))
        (some (.mk .typeNumber (.vFloat (.val 42)) [] [])) []).status = .same :=
  (number_compare_same_iff_spec_rule.1 {} 1 [] (.vInt 42) (.vFloat (.val 42))
    rfl rfl (by decide) (by decide) (by omega)).mpr (by decide)

/-! ## Claim C10: `String`-typed nodes with non-string payloads -/

/-- The payload is a Go string. -/
def GoValue.isStr : GoValue → Bool
  | .vStr _ => true
  | _ => false

/-- C10 counterexample: two `String`-typed values holding the *same*
non-string payload compare `Same`, not `Modified` (Go interface equality
succeeds before any payload-type check). -/
theorem string_node_equal_nonstring_payloads_same :
    (compareCore {} 1 (some (.mk .typeString (.vInt 5) [] []))
        (some (.mk .typeString (.vInt 5) [] [])) []).status = .same := by decide

/-- C10 amended: comparing two `String`-typed values where at least one
payload is not a string never panics (the comparator is total by
construction) and returns `Modified` exactly when the two payloads differ
as Go interface values — when they are equal it returns `Same`. -/
theorem string_node_malformed_payload_total :
    ∀ (e : DiffOptions) (fuel : Nat) (p : List String) (x y : GoValue),
      1 ≤ fuel → (x.isStr = false ∨ y.isStr = false) →
      (compareCore e fuel (some (.mk .typeString x [] []))
          (some (.mk .typeString y [] [])) p).status =
        (if x == y then .same else .modified) := by
  intro e fuel p x y hfuel hstr
  match fuel, hfuel with
  | m + 1, _ =>
    have hline : shouldDoLineDiff (.mk .typeString x [] []) (.mk .typeString y [] []) = false := by
      cases x <;> cases y <;> simp_all [shouldDoLineDiff, GoValue.isStr]
    have hspe : stringPayloadEqual e x y = (x == y) := by
      cases x <;> cases y <;> simp_all [stringPayloadEqual, GoValue.isStr]
    show (DiffResult.status (if _ then _ else _)) = _
    rw [if_neg (by simp)]
    show (DiffResult.status (if shouldDoLineDiff _ _ then _ else _)) = _
    rw [hline]
    show (DiffResult.status (if stringPayloadEqual e x y then _ else _)) = _
    rw [hspe]
    cases hb : (x == y) <;> simp [hb]

/-- Witness for C10 at an int payload against a string payload. -/
theorem string_node_malformed_payload_total_witness :
    (compareCore {} 1 (some (.mk .typeString (.vInt 5) [] []))
        (some (.mk .typeString (.vStr "5") [] [])) []).status = .modified := by
  have h := string_node_malformed_payload_total {} 1 [] (.vInt 5) (.vStr "5")
    (by omega) (Or.inl rfl)
  simpa using h

/-! ## Claim C8: context windower on five siblings -/

/-- The five-sibling scenario: leaf results, only index 2 non-`Same`. -/
def c8Siblings : List DiffResult :=
  [.mk .same ["f0"] (some (lineSD "v")) (some (lineSD "v")) [] none,
   .mk .same ["f1"] (some (lineSD "v")) (some (lineSD "v")) [] none,
   .mk .modified ["f2"] (some (lineSD "a")) (some (lineSD "b")) [] (some ⟨1⟩),
   .mk .same ["f3"] (some (lineSD "v")) (some (lineSD "v")) [] none,
   .mk .same ["f4"] (some (lineSD "v")) (some (lineSD "v")) [] none]

/-- C8 counterexample: with `C = 1` and the only anchor at index 2 of 5
siblings, the windower DOES emit an elision marker (before the first
rendered sibling, since index 0 is skipped and `prevShown` is false). -/
theorem context_window_emits_leading_marker :
    RenderEvent.sep ∈ formatChildrenWithContextEvents 1 5 c8Siblings := by decide

/-- C8 amended: with `C = 1` and the only anchor at index 2 of 5
siblings, the rendered set is exactly `{1, 2, 3}` and exactly one elision
marker is emitted, immediately before sibling 1 (the code writes the
marker whenever the first sibling of a rendered run has a skipped
predecessor, including at the leading edge); no marker follows the run. -/
theorem context_window_c1_five_siblings :
    formatChildrenWithContextEvents 1 5 c8Siblings =
      [.sep, .child 1, .child 2, .child 3] := by decide

/-! ## Claim C6: multiline-string line diff -/

theorem string_mk_data (x : String) : String.mk x.data = x := by
  cases x
  rfl

theorem stripIndexSeg_idxSeg (i : Nat) : stripIndexSeg (idxSeg i) = some (Nat.repr i) := by
  show stripIndexSeg ("[" ++ Nat.repr i ++ "]") = _
  unfold stripIndexSeg
  rw [String.data_append, String.data_append]
  show (match '[' :: ((Nat.repr i).data ++ [']']) with
    | [] => none
    | c :: rest =>
      if c = '[' ∧ rest.getLast? = some ']' then some (String.mk rest.dropLast) else none) = _
  rw [show (match '[' :: ((Nat.repr i).data ++ [']']) with
    | [] => none
    | c :: rest =>
      if c = '[' ∧ rest.getLast? = some ']' then some (String.mk rest.dropLast) else none) =
      (if '[' = '[' ∧ ((Nat.repr i).data ++ [']']).getLast? = some ']' then
        some (String.mk ((Nat.repr i).data ++ [']']).dropLast) else none) from rfl]
  rw [if_pos ⟨rfl, by rw [List.getLast?_concat]⟩]
  rw [List.dropLast_concat, string_mk_data]

theorem relabelLineSeg_concat (p : List String) (i : Nat) :
    relabelLineSeg (p ++ [idxSeg i]) = p ++ ["line " ++ Nat.repr i] := by
  unfold relabelLineSeg
  rw [List.getLast?_concat]
  show (match stripIndexSeg (idxSeg i) with
    | some lineNum => (p ++ [idxSeg i]).dropLast ++ ["line " ++ lineNum]
    | none => p ++ [idxSeg i]) = _
  rw [stripIndexSeg_idxSeg]
  show (p ++ [idxSeg i]).dropLast ++ ["line " ++ Nat.repr i] = _
  rw [List.dropLast_concat]

theorem compareLinePair_path (e : DiffOptions) (a b : Option String) (p : List String) :
    (compareLinePair e a b p).path = p := by
  cases a <;> cases b <;> simp only [compareLinePair] <;> first | rfl | (split <;> rfl)

/-- A comparison of two strings of which either is multiline reduces to
the multiline splitter. -/
theorem compareCore_multiline (e : DiffOptions) (fuel : Nat) (hfuel : 1 ≤ fuel)
    (s t : String) (p : List String)
    (h : shouldDoLineDiff (lineSD s) (lineSD t) = true) :
    compareCore e fuel (some (lineSD s)) (some (lineSD t)) p =
      compareMultilineStringsW e (lineSD s) (lineSD t) s t p := by
  match fuel, hfuel with
  | m + 1, _ =>
    show (if ((lineSD s).typ != (lineSD t).typ) = true then _ else _) = _
    rw [if_neg (by simp [lineSD])]
    show (if shouldDoLineDiff (lineSD s) (lineSD t) = true then _ else _) = _
    rw [if_pos h]
    rfl

/-- C6: when either string contains a line-break the comparator splits on
line-breaks and compares the line lists positionally — the result does
not depend on the configured array strategy (first conjunct) — keeps the
unsplit strings as the outer `from`/`to` and labels every child
`"line i"` (second conjunct); on `"a\nb\nc"` vs `"a\nX\nc"` it returns
`Modified` with exactly one non-`Same` child, at label `"line 1"` (third
conjunct). -/
theorem multiline_string_line_diff :
    (∀ (e : DiffOptions) (st : ArrayDiffStrategy) (fuel : Nat) (p : List String) (s t : String),
      shouldDoLineDiff (lineSD s) (lineSD t) = true → 1 ≤ fuel →
      compareCore { e with arrayDiffStrategy := st } fuel
          (some (lineSD s)) (some (lineSD t)) p =
        compareCore e fuel (some (lineSD s)) (some (lineSD t)) p) ∧
    (∀ (e : DiffOptions) (fuel : Nat) (p : List String) (s t : String),
      shouldDoLineDiff (lineSD s) (lineSD t) = true → 1 ≤ fuel →
      (compareCore e fuel (some (lineSD s)) (some (lineSD t)) p).fromV = some (lineSD s) ∧
      (compareCore e fuel (some (lineSD s)) (some (lineSD t)) p).toV = some (lineSD t) ∧
      ∀ c ∈ (compareCore e fuel (some (lineSD s)) (some (lineSD t)) p).children,
        ∃ i : Nat, c.path = p ++ ["line " ++ Nat.repr i]) ∧
    ((compareCore {} 1 (some (lineSD "a\nb\nc")) (some (lineSD "a\nX\nc")) []).status =
        .modified ∧
      (compareCore {} 1 (some (lineSD "a\nb\nc")) (some (lineSD "a\nX\nc")) []).children.map
          (fun c => (c.path, c.status)) =
        [(["line 0"], .same), (["line 1"], .modified), (["line 2"], .same)]) := by
  refine ⟨?_, ?_, by decide, by decide⟩
  · intro e st fuel p s t h hfuel
    rw [compareCore_multiline _ fuel hfuel s t p h, compareCore_multiline _ fuel hfuel s t p h]
    rfl
  · intro e fuel p s t h hfuel
    rw [compareCore_multiline e fuel hfuel s t p h]
    refine ⟨rfl, rfl, ?_⟩
    intro c hc
    unfold compareMultilineStringsW at hc
    simp only [DiffResult.children_mk] at hc
    split at hc
    · obtain ⟨c₀, hc₀, rfl⟩ := List.mem_map.mp hc
      obtain ⟨i, hi, rfl⟩ := List.mem_map.mp hc₀
      refine ⟨i, ?_⟩
      rw [DiffResult.withPath_path, compareLinePair_path, relabelLineSeg_concat]
    · simp at hc

/-- Witness for C6 at the concrete multiline pair. -/
theorem multiline_string_line_diff_witness :
    compareCore { arrayDiffStrategy := .value } 1
        (some (lineSD "a\nb\nc")) (some (lineSD "a\nX\nc")) [] =
      compareCore {} 1 (some (lineSD "a\nb\nc")) (some (lineSD "a\nX\nc")) [] ∧
    (compareCore {} 1 (some (lineSD "a\nb\nc")) (some (lineSD "a\nX\nc")) []).fromV =
      some (lineSD "a\nb\nc") :=
  ⟨multiline_string_line_diff.1 {} .value 1 [] "a\nb\nc" "a\nX\nc" (by decide) (by omega),
   (multiline_string_line_diff.2.1 {} 1 [] "a\nb\nc" "a\nX\nc" (by decide) (by omega)).1⟩

/-! ## Claim C5: ignore rules during object comparison -/

def johnActive : SD :=
  .mk .typeObject .vNone
    [("name", lineSD "John"), ("active", .mk .typeBool (.vBool false) [] [])] []

def johnOnly : SD := .mk .typeObject .vNone [("name", lineSD "John")] []

theorem compareCore_objects (e : DiffOptions) {fuel : Nat} (hfuel : 1 ≤ fuel) {a b : SD}
    (ha : a.typ = .typeObject) (hb : b.typ = .typeObject) (p : List String) :
    compareCore e fuel (some a) (some b) p =
      compareObjectsW e (fun x y q => compareCore e (fuel - 1) x y q) a b p := by
  match fuel, hfuel with
  | m + 1, _ =>
    show (if (a.typ != b.typ) = true then _ else _) = _
    rw [if_neg (by simp [ha, hb])]
    rw [ha]
    rfl

theorem mem_unionKeys {a b : SD} {k : String} :
    k ∈ unionKeys a b ↔ k ∈ a.children.map Prod.fst ∨ k ∈ b.children.map Prod.fst := by
  unfold unionKeys sortStrings
  rw [List.Perm.mem_iff (List.perm_insertionSort _ _), List.mem_dedup, List.mem_append]

theorem lookupChild_isSome {d : SD} {k : String} :
    (lookupChild d k).isSome = true ↔ k ∈ d.children.map Prod.fst := by
  unfold lookupChild
  induction d.children with
  | nil => simp [List.lookup]
  | cons kv rest ih =>
    rw [List.lookup_cons]
    split
    · rename_i heq
      have hk : k = kv.1 := by simpa using heq
      subst hk
      simp
    · rename_i hne
      have hk : ¬k = kv.1 := by simpa using hne
      simp only [List.map_cons, List.mem_cons, ih]
      constructor
      · exact Or.inr
      · rintro (h' | h')
        · exact absurd h' hk
        · exact h'

/-- C5 counterexample: an integer-typed zero is not a zero value.  Under
`ignoreZeroValues`, the key of `{"z": 0}` with an int64/uint64 payload is
kept against the empty object (the comparison is `Modified`), because
Go's zero test `data.Value == 0 || data.Value == 0.0` compares dynamic
types and the decoders never store a plain `int`; the same document with
a float-typed 0 is skipped and compares `Same`. -/
theorem object_int_zero_not_skipped :
    (engineCompare { ignoreZeroValues := true } 3
      (some (SD.mk .typeObject .vNone [("z", SD.mk .typeNumber (.vInt 0) [] [])] []))
      (some (SD.mk .typeObject .vNone [] []))).status = .modified ∧
    (engineCompare { ignoreZeroValues := true } 3
      (some (SD.mk .typeObject .vNone
        [("z", SD.mk .typeNumber (.vFloat (.val 0)) [] [])] []))
      (some (SD.mk .typeObject .vNone [] []))).status = .same := by
  exact ⟨by decide, by decide⟩

/-- C5 (corrected): during object comparison (exact-key mode) a key pair
is omitted from the children exactly when both sides satisfy
`shouldIgnore` (absent side: ignorable under ignore-empty, or under
ignore-zero-values, where the nil pointer counts as the zero form;
present side: ignorable under ignore-zero-values when the value is null,
false, a float-typed 0, "", an empty array or an empty object — an
integer-typed zero, as the YAML decoder produces, is not a zero value);
and `{"name":"John","active":false}` versus `{"name":"John"}` with
`ignoreZeroValues` compares `Same`. -/
theorem object_key_skipped_iff_both_ignored :
    (∀ (e : DiffOptions) (fuel : Nat) (p : List String) (a b : SD) (k : String),
      e.ignoreKeyCase = false → 1 ≤ fuel →
      a.typ = .typeObject → b.typ = .typeObject →
      ((∃ c ∈ (compareCore e fuel (some a) (some b) p).children, c.path = p ++ [k]) ↔
        ((k ∈ a.children.map Prod.fst ∨ k ∈ b.children.map Prod.fst) ∧
          ¬(shouldIgnore e (lookupChild a k) = true ∧
            shouldIgnore e (lookupChild b k) = true)))) ∧
    (compareCore { ignoreZeroValues := true } 10
        (some johnActive) (some johnOnly) []).status = .same := by
  refine ⟨?_, by decide⟩
  intro e fuel p a b k hkc hfuel ha hb
  rw [compareCore_objects e hfuel ha hb p]
  unfold compareObjectsW
  rw [if_neg (by simp [hkc])]
  simp only [DiffResult.children_mk]
  constructor
  · rintro ⟨c, hc, hpath⟩
    obtain ⟨k', hk', rfl⟩ := List.mem_map.mp hc
    rw [compareCore_path] at hpath
    have hkk : k' = k := by
      have := List.append_cancel_left hpath
      simpa using this
    subst hkk
    obtain ⟨hmem, hpred⟩ := List.mem_filter.mp hk'
    refine ⟨mem_unionKeys.mp hmem, ?_⟩
    intro ⟨h1, h2⟩
    simp [h1, h2] at hpred
  · rintro ⟨hmem, hpred⟩
    have hk' : k ∈ (unionKeys a b).filter fun k =>
        !(shouldIgnore e (lookupChild a k) && shouldIgnore e (lookupChild b k)) := by
      rw [List.mem_filter]
      refine ⟨mem_unionKeys.mpr hmem, ?_⟩
      rw [Bool.not_eq_eq_eq_not, Bool.not_true, Bool.and_eq_false_iff]
      by_cases h1 : shouldIgnore e (lookupChild a k) = true
      · right
        by_cases h2 : shouldIgnore e (lookupChild b k) = true
        · exact absurd ⟨h1, h2⟩ hpred
        · simpa using h2
      · left
        simpa using h1
    refine ⟨compareCore e (fuel - 1) (lookupChild a k) (lookupChild b k) (p ++ [k]),
      List.mem_map.mpr ⟨k, hk', rfl⟩, compareCore_path ..⟩

/-- Witness for C5: in the concrete example the key `"active"` is
skipped and the key `"name"` is kept. -/
theorem object_key_skipped_iff_both_ignored_witness :
    ¬(∃ c ∈ (compareCore { ignoreZeroValues := true } 10
        (some johnActive) (some johnOnly) []).children, c.path = [] ++ ["active"]) ∧
    (∃ c ∈ (compareCore { ignoreZeroValues := true } 10
        (some johnActive) (some johnOnly) []).children, c.path = [] ++ ["name"]) := by
  constructor
  · intro h
    have := (object_key_skipped_iff_both_ignored.1 { ignoreZeroValues := true } 10 []
      johnActive johnOnly "active" rfl (by omega) rfl rfl).mp h
    exact this.2 (by decide)
  · exact (object_key_skipped_iff_both_ignored.1 { ignoreZeroValues := true } 10 []
      johnActive johnOnly "name" rfl (by omega) rfl rfl).mpr ⟨by decide, by decide⟩

/-! ## Claim C4: parent-child path discipline -/

/-- Every node of the tree extends its parent's path by exactly one
segment. -/
def PathDiscipline (r : DiffResult) : Prop :=
  ∀ d, InTree d r → ∀ c ∈ d.children, ∃ seg, c.path = d.path ++ [seg]

theorem pathDiscipline_mk {st p f t cs m}
    (h1 : ∀ c ∈ cs, ∃ seg, c.path = p ++ [seg])
    (h2 : ∀ c ∈ cs, PathDiscipline c) :
    PathDiscipline (.mk st p f t cs m) := by
  intro d hd c hc
  rcases inTree_iff.mp hd with rfl | ⟨c', hc', hd'⟩
  · simp only [DiffResult.children_mk] at hc
    simp only [DiffResult.path_mk]
    exact h1 c hc
  · simp only [DiffResult.children_mk] at hc'
    exact h2 c' hc' d hd' c hc

theorem pathDiscipline_leaf {r : DiffResult} (h : r.children = []) :
    PathDiscipline r := by
  intro d hd c hc
  rcases inTree_iff.mp hd with rfl | ⟨c', hc', _⟩
  · rw [h] at hc
    cases hc
  · rw [h] at hc'
    cases hc'

theorem compareLinePair_children (e : DiffOptions) (a b : Option String) (p : List String) :
    (compareLinePair e a b p).children = [] := by
  cases a <;> cases b <;> simp only [compareLinePair] <;> first | rfl | (split <;> rfl)

/-- C4 amended (index strategy): with `ArrayStrategyIndex` configured,
every node of any comparison result extends its parent's path by exactly
one segment (an object key, an `"[i]"` index segment, or a `"line i"`
label for multiline-string children). -/
theorem compareCore_pathDiscipline :
    ∀ (fuel : Nat) (e : DiffOptions) (a b : Option SD) (p : List String),
      e.arrayDiffStrategy = .index →
      PathDiscipline (compareCore e fuel a b p) := by
  intro fuel
  induction fuel with
  | zero => intro e a b p _; exact pathDiscipline_leaf rfl
  | succ n ih =>
    intro e a b p hstrat
    match a, b with
    | none, none => exact pathDiscipline_leaf rfl
    | none, some b => exact pathDiscipline_leaf rfl
    | some a, none => exact pathDiscipline_leaf rfl
    | some a, some b =>
      show PathDiscipline (if _ then _ else _)
      split
      · exact pathDiscipline_leaf rfl
      · show PathDiscipline (match a.typ with
          | DataType.typeNull => _
          | DataType.typeBool => _
          | DataType.typeString => _
          | DataType.typeNumber => _
          | DataType.typeArray => _
          | DataType.typeObject => _)
        split
        · exact pathDiscipline_leaf rfl
        · split <;> exact pathDiscipline_leaf rfl
        · -- string
          split
          · -- multiline
            split
            · -- both payloads strings: the splitter
              rename_i s t _
              unfold compareMultilineStringsW
              apply pathDiscipline_mk
              · intro c hc
                simp only at hc
                split at hc
                · obtain ⟨c₀, hc₀, rfl⟩ := List.mem_map.mp hc
                  obtain ⟨i, _, rfl⟩ := List.mem_map.mp hc₀
                  exact ⟨"line " ++ Nat.repr i, by
                    rw [DiffResult.withPath_path, compareLinePair_path, relabelLineSeg_concat]⟩
                · cases hc
              · intro c hc
                simp only at hc
                split at hc
                · obtain ⟨c₀, hc₀, rfl⟩ := List.mem_map.mp hc
                  obtain ⟨i, _, rfl⟩ := List.mem_map.mp hc₀
                  exact pathDiscipline_leaf (by
                    rw [DiffResult.withPath_children, compareLinePair_children])
                · cases hc
            · exact pathDiscipline_leaf rfl
          · split <;> exact pathDiscipline_leaf rfl
        · split <;> exact pathDiscipline_leaf rfl
        · -- array
          rw [show (e.arrayDiffStrategy == ArrayDiffStrategy.value) = false by
            rw [hstrat]; rfl]
          simp only [Bool.false_eq_true, if_false]
          unfold compareArraysByIndexW
          apply pathDiscipline_mk
          · intro c hc
            obtain ⟨i, _, rfl⟩ := List.mem_map.mp hc
            exact ⟨idxSeg i, compareCore_path ..⟩
          · intro c hc
            obtain ⟨i, _, rfl⟩ := List.mem_map.mp hc
            exact ih e _ _ _ hstrat
        · -- object
          unfold compareObjectsW
          split
          · unfold compareObjectsIgnoreCaseW
            apply pathDiscipline_mk
            · intro c hc
              obtain ⟨lk, _, rfl⟩ := List.mem_map.mp hc
              exact ⟨_, compareCore_path ..⟩
            · intro c hc
              obtain ⟨lk, _, rfl⟩ := List.mem_map.mp hc
              exact ih e _ _ _ hstrat
          · apply pathDiscipline_mk
            · intro c hc
              obtain ⟨k, _, rfl⟩ := List.mem_map.mp hc
              exact ⟨k, compareCore_path ..⟩
            · intro c hc
              obtain ⟨k, _, rfl⟩ := List.mem_map.mp hc
              exact ih e _ _ _ hstrat

def objK1 : SD := .mk .typeObject .vNone [("k", .mk .typeNumber (.vInt 1) [] [])] []

def objK2 : SD := .mk .typeObject .vNone [("k", .mk .typeNumber (.vInt 2) [] [])] []

/-- C4 counterexample: under the value strategy, a matched array
element's own path is reassigned to the full path, but its descendants
keep the paths computed during the all-pairs search, which was rooted at
the empty path — here the child of the matched node has path `["k"]`
although its parent's path is `["[0]"]`, so no single-segment extension
relates them. -/
theorem value_strategy_descendant_path_stale :
    ((compareCore { arrayDiffStrategy := .value } 10
        (some (.mk .typeArray .vNone [] [objK1]))
        (some (.mk .typeArray .vNone [] [objK2])) []).children.getD 0 default).path =
      ["[0]"] ∧
    (((compareCore { arrayDiffStrategy := .value } 10
        (some (.mk .typeArray .vNone [] [objK1]))
        (some (.mk .typeArray .vNone [] [objK2])) []).children.getD 0
          default).children.getD 0 default).path = ["k"] ∧
    ∀ seg : String, ¬(["k"] = ["[0]"] ++ [seg]) := by
  refine ⟨rfl, rfl, ?_⟩
  intro seg h
  simp at h

/-- Witness for the amended C4 at a concrete index-strategy comparison. -/
theorem compareCore_pathDiscipline_witness :
    ∃ seg, ((compareCore {} 2 (some (.mk .typeObject .vNone [("k", lineSD "v")] []))
        (some (.mk .typeObject .vNone [("k", lineSD "w")] [])) []).children.getD 0
          default).path = ([] : List String) ++ [seg] := by
  have h := compareCore_pathDiscipline 2 {}
    (some (.mk .typeObject .vNone [("k", lineSD "v")] []))
    (some (.mk .typeObject .vNone [("k", lineSD "w")] [])) [] rfl
    (compareCore {} 2 (some (.mk .typeObject .vNone [("k", lineSD "v")] []))
      (some (.mk .typeObject .vNone [("k", lineSD "w")] [])) [])
    (InTree.refl _)
    ((compareCore {} 2 (some (.mk .typeObject .vNone [("k", lineSD "v")] []))
      (some (.mk .typeObject .vNone [("k", lineSD "w")] [])) []).children.getD 0 default)
    (by
      rw [show (compareCore {} 2 (some (.mk .typeObject .vNone [("k", lineSD "v")] []))
        (some (.mk .typeObject .vNone [("k", lineSD "w")] [])) []).children =
        [.mk .modified ["k"] (some (lineSD "v")) (some (lineSD "w")) [] (some ⟨1⟩)] from rfl]
      exact List.mem_singleton.mpr rfl)
  exact h

/-! ## Claim C9: HasDifferences and status propagation -/

/-- Every node of the tree reports `Same`. -/
def AllSame (r : DiffResult) : Prop := ∀ d, InTree d r → d.status = .same

theorem allSame_of_children_nil {r : DiffResult} (h : r.children = [])
    (hs : r.status = .same) : AllSame r := by
  intro d hd
  rcases inTree_iff.mp hd with rfl | ⟨c, hc, _⟩
  · exact hs
  · rw [h] at hc
    cases hc

theorem allSame_mk {p f t cs m} (hcs : ∀ c ∈ cs, AllSame c) :
    AllSame (.mk .same p f t cs m) := by
  intro d hd
  rcases inTree_iff.mp hd with rfl | ⟨c, hc, hd'⟩
  · rfl
  · simp only [DiffResult.children_mk] at hc
    exact hcs c hc d hd'

theorem allSame_withPath {d : DiffResult} (p : List String) (h : AllSame d) :
    AllSame (d.withPath p) := by
  intro x hx
  rcases inTree_iff.mp hx with rfl | ⟨c, hc, hx'⟩
  · rw [DiffResult.withPath_status]
    exact h d (InTree.refl d)
  · rw [DiffResult.withPath_children] at hc
    exact h x (InTree.step hc hx')

theorem selectGreedy_subset :
    ∀ (l : List MatchEntry) (uA uB : List Nat),
      ∀ m ∈ (selectGreedy l uA uB).1, m ∈ l := by
  intro l
  induction l with
  | nil => intro uA uB m hm; cases hm
  | cons x rest ih =>
    intro uA uB m hm
    unfold selectGreedy at hm
    split at hm
    · exact List.mem_cons_of_mem _ (ih uA uB m hm)
    · rcases List.mem_cons.mp hm with rfl | hm'
      · exact List.mem_cons_self _ _
      · exact List.mem_cons_of_mem _ (ih _ _ m hm')

theorem mem_valuePairs_shape {cmp} {a b : SD} {m : MatchEntry}
    (hm : m ∈ valuePairs cmp a b) :
    ∃ x y, m.diff = cmp (some x) (some y) [] := by
  unfold valuePairs at hm
  obtain ⟨ia, _, hm'⟩ := List.mem_flatMap.mp hm
  obtain ⟨jb, _, rfl⟩ := List.mem_map.mp hm'
  exact ⟨ia.2, jb.2, rfl⟩

theorem mem_valueSelection_shape {cmp} {a b : SD} {m : MatchEntry}
    (hm : m ∈ (valueSelection cmp a b).1) :
    ∃ x y, m.diff = cmp (some x) (some y) [] := by
  apply mem_valuePairs_shape
  have h1 := selectGreedy_subset _ _ _ m hm
  exact (List.Perm.mem_iff (List.perm_insertionSort _ _)).mp h1

/-- Core invariant: a comparison that reports `Same` has an all-`Same`
subtree. -/
theorem compareCore_sameClosed :
    ∀ (fuel : Nat) (e : DiffOptions) (a b : Option SD) (p : List String),
      (compareCore e fuel a b p).status = .same →
      AllSame (compareCore e fuel a b p) := by
  intro fuel
  induction fuel with
  | zero => intro e a b p _; exact allSame_of_children_nil rfl rfl
  | succ n ih =>
    intro e a b p
    match a, b with
    | none, none => intro _; exact allSame_of_children_nil rfl rfl
    | none, some b => intro hs; exact absurd hs (by intro h; exact DiffStatus.noConfusion h)
    | some a, none => intro hs; exact absurd hs (by intro h; exact DiffStatus.noConfusion h)
    | some a, some b =>
      show (DiffResult.status (if _ then _ else _) = _) → AllSame (if _ then _ else _)
      split
      · intro hs; simp at hs
      · split
        · intro _; exact allSame_of_children_nil rfl rfl
        · split
          · intro _; exact allSame_of_children_nil rfl rfl
          · intro hs; simp at hs
        · -- string
          split
          · split
            · -- multiline splitter
              rename_i s t _
              intro hs
              simp only [compareMultilineStringsW, DiffResult.status_mk] at hs
              simp only [compareMultilineStringsW]
              apply allSame_of_children_nil
              · simp only [DiffResult.children_mk]
                rw [hs]
                simp
              · simpa using hs
            · intro _; exact allSame_of_children_nil rfl rfl
          · split
            · intro _; exact allSame_of_children_nil rfl rfl
            · intro hs; simp at hs
        · split
          · intro _; exact allSame_of_children_nil rfl rfl
          · intro hs; simp at hs
        · -- array
          split
          · -- value strategy
            intro hs
            simp only [compareArraysByValueW, DiffResult.status_mk] at hs
            simp only [compareArraysByValueW]
            split at hs
            · rename_i hcond
              have hcond' := hcond
              simp only [Bool.and_eq_true] at hcond'
              obtain ⟨⟨hdel, hadd⟩, hall⟩ := hcond'
              rw [List.isEmpty_iff] at hdel hadd
              rw [if_pos hcond, hdel, hadd]
              simp only [List.nil_append]
              apply allSame_mk
              intro c hc
              have hcsame : c.status = .same := by
                have := List.all_eq_true.mp hall _ hc
                simpa using this
              obtain ⟨m, hmsel, rfl⟩ := List.mem_map.mp hc
              obtain ⟨x, y, hdiff⟩ := mem_valueSelection_shape hmsel
              apply allSame_withPath
              rw [DiffResult.withPath_status, hdiff] at hcsame
              rw [hdiff]
              exact ih e (some x) (some y) [] hcsame
            · simp at hs
          · -- index strategy
            intro hs
            simp only [compareArraysByIndexW, DiffResult.status_mk] at hs
            simp only [compareArraysByIndexW]
            rw [hs]
            apply allSame_mk
            intro c hc
            have hcsame := accumStatus_same hs c hc
            obtain ⟨i, _, rfl⟩ := List.mem_map.mp hc
            exact ih e _ _ _ hcsame
        · -- object
          intro hs
          simp only [compareObjectsW] at hs ⊢
          by_cases hkc : e.ignoreKeyCase = true
          · rw [if_pos hkc] at hs ⊢
            simp only [compareObjectsIgnoreCaseW, DiffResult.status_mk] at hs
            simp only [compareObjectsIgnoreCaseW]
            rw [hs]
            apply allSame_mk
            intro c hc
            have hcsame := accumStatus_same hs c hc
            obtain ⟨lk, _, rfl⟩ := List.mem_map.mp hc
            exact ih e _ _ _ hcsame
          · rw [if_neg hkc] at hs ⊢
            simp only [DiffResult.status_mk] at hs
            rw [hs]
            apply allSame_mk
            intro c hc
            have hcsame := accumStatus_same hs c hc
            obtain ⟨k, _, rfl⟩ := List.mem_map.mp hc
            exact ih e _ _ _ hcsame

theorem getD_prop {α : Type} {P : α → Prop} :
    ∀ (l : List α) (i : Nat) (d : α), (∀ x ∈ l, P x) → P d → P (l.getD i d)
  | [], i, d, _, hd => by rwa [List.getD_nil]
  | x :: xs, 0, d, hl, _ => by
    rw [List.getD_cons_zero]
    exact hl x (List.mem_cons_self x xs)
  | x :: xs, i + 1, d, hl, hd => by
    rw [List.getD_cons_succ]
    exact getD_prop xs i d (fun y hy => hl y (List.mem_cons_of_mem _ hy)) hd

/-- A result of the multi-document `Compare` is an engine comparison (or
the out-of-range placeholder, itself childless and `Same`). -/
def CompareShape (e : DiffOptions) (fuel : Nat) (r : DiffResult) : Prop :=
  (∃ a b, r = engineCompare e fuel a b) ∨ r = default

theorem mem_Compare_shape {docsA docsB : List SD} {e : DiffOptions} {fuel : Nat}
    {r : DiffResult} (hr : r ∈ Compare docsA docsB e fuel) : CompareShape e fuel r := by
  simp only [Compare] at hr
  split at hr
  · rcases List.mem_singleton.mp hr with rfl
    exact Or.inl ⟨_, _, rfl⟩
  · split at hr
    · cases hr
    · rw [List.mem_append] at hr
      rcases hr with hr | hr
      · obtain ⟨i, _, rfl⟩ := List.mem_map.mp hr
        split
        · apply getD_prop
          · intro x hx
            apply getD_prop (P := fun row => ∀ x ∈ row, CompareShape e fuel x)
                (docsA.map fun dA => docsB.map fun dB =>
                  engineCompare e fuel (some dA) (some dB)) i [] ?_ ?_ x hx
            · intro row hrow y hy
              obtain ⟨dA, _, rfl⟩ := List.mem_map.mp hrow
              obtain ⟨dB, _, rfl⟩ := List.mem_map.mp hy
              exact Or.inl ⟨_, _, rfl⟩
            · intro y hy
              cases hy
          · exact Or.inr rfl
        · apply getD_prop
          · intro x hx
            obtain ⟨dA, _, rfl⟩ := List.mem_map.mp hx
            exact Or.inl ⟨_, _, rfl⟩
          · exact Or.inr rfl
      · obtain ⟨j, _, rfl⟩ := List.mem_map.mp hr
        apply getD_prop
        · intro x hx
          obtain ⟨dB, _, rfl⟩ := List.mem_map.mp hx
          exact Or.inl ⟨_, _, rfl⟩
        · exact Or.inr rfl

/-- C9: `HasDifferences` on a forest produced by the multi-document
`Compare` is true exactly when some node anywhere in the forest reports a
status other than `Same` — checking the roots suffices because a `Same`
root has an all-`Same` subtree (`compareCore_sameClosed`). -/
theorem hasDifferences_iff_some_node_differs :
    ∀ (docsA docsB : List SD) (e : DiffOptions) (fuel : Nat),
      HasDifferences (Compare docsA docsB e fuel) = true ↔
        ∃ r ∈ Compare docsA docsB e fuel, ∃ d, InTree d r ∧ d.status ≠ .same := by
  intro docsA docsB e fuel
  constructor
  · intro h
    obtain ⟨r, hr, hne⟩ := List.any_eq_true.mp h
    exact ⟨r, hr, r, InTree.refl r, by simpa using hne⟩
  · rintro ⟨r, hr, d, hd, hne⟩
    apply List.any_eq_true.mpr
    have hrne : r.status ≠ .same := by
      intro hsame
      rcases mem_Compare_shape hr with ⟨a', b', rfl⟩ | rfl
      · exact hne (compareCore_sameClosed fuel e a' b' [] hsame d hd)
      · rcases inTree_iff.mp hd with rfl | ⟨c, hc, _⟩
        · exact hne rfl
        · exact absurd hc (List.not_mem_nil c)
    exact ⟨r, hr, by simpa using hrne⟩

/-! ## Machinery for the value-strategy claims -/

theorem orderedInsert_cons_of_neg {α} (r : α → α → Prop) [DecidableRel r] (a z : α)
    (l : List α) (h : ¬r a z) :
    (z :: l).orderedInsert r a = z :: l.orderedInsert r a := by
  show (if r a z then a :: z :: l else z :: l.orderedInsert r a) = _
  rw [if_neg h]

theorem orderedInsert_cons_of_pos {α} (r : α → α → Prop) [DecidableRel r] (a z : α)
    (l : List α) (h : r a z) :
    (z :: l).orderedInsert r a = a :: z :: l := by
  show (if r a z then a :: z :: l else z :: l.orderedInsert r a) = _
  rw [if_pos h]

theorem orderedInsert_append {α} (r : α → α → Prop) [DecidableRel r] (a : α) :
    ∀ (s₁ s₂ : List α), (∀ z ∈ s₁, ¬r a z) →
      (s₁ ++ s₂).orderedInsert r a = s₁ ++ s₂.orderedInsert r a
  | [], _, _ => rfl
  | z :: s₁, s₂, h => by
    rw [List.cons_append, orderedInsert_cons_of_neg r a z _ (h z (List.mem_cons_self z s₁)),
      orderedInsert_append r a s₁ s₂ fun y hy => h y (List.mem_cons_of_mem _ hy),
      List.cons_append]

theorem orderedInsert_zero {a : MatchEntry} (ha : a.cost = 0) (l : List MatchEntry) :
    l.orderedInsert (fun x y => x.cost ≤ y.cost) a = a :: l := by
  cases l with
  | nil => rfl
  | cons z l => exact orderedInsert_cons_of_pos _ a z l (by omega)

/-- A stable sort by cost puts the zero-cost entries first, in their
original relative order. -/
theorem insertionSort_zero_front :
    ∀ l : List MatchEntry,
      l.insertionSort (fun x y => x.cost ≤ y.cost) =
        l.filter (fun m => m.cost == 0) ++
          (l.filter fun m => !(m.cost == 0)).insertionSort fun x y => x.cost ≤ y.cost
  | [] => rfl
  | a :: l => by
    show (l.insertionSort _).orderedInsert _ a = _
    by_cases ha : a.cost = 0
    · rw [insertionSort_zero_front l, orderedInsert_zero ha,
        List.filter_cons_of_pos (by simpa using ha),
        List.filter_cons_of_neg (by simpa using ha), List.cons_append]
    · rw [insertionSort_zero_front l,
        orderedInsert_append _ a _ _ (fun z hz => by
          have hz0 : z.cost = 0 := by
            simpa using (List.mem_filter.mp hz).2
          omega),
        List.filter_cons_of_neg (by simpa using ha),
        List.filter_cons_of_pos (by simpa using ha)]
      rfl

theorem selectGreedy_cons_skip {m : MatchEntry} {l : List MatchEntry} {uA uB : List Nat}
    (h : (uA.contains m.indexA || uB.contains m.indexB) = true) :
    selectGreedy (m :: l) uA uB = selectGreedy l uA uB := by
  show (if uA.contains m.indexA || uB.contains m.indexB then selectGreedy l uA uB else _) = _
  rw [if_pos h]

theorem selectGreedy_cons_take {m : MatchEntry} {l : List MatchEntry} {uA uB : List Nat}
    (h : ¬((uA.contains m.indexA || uB.contains m.indexB) = true)) :
    selectGreedy (m :: l) uA uB =
      (m :: (selectGreedy l (m.indexA :: uA) (m.indexB :: uB)).1,
       (selectGreedy l (m.indexA :: uA) (m.indexB :: uB)).2.1,
       (selectGreedy l (m.indexA :: uA) (m.indexB :: uB)).2.2) := by
  show (if uA.contains m.indexA || uB.contains m.indexB then _ else _) = _
  rw [if_neg h]

theorem selectGreedy_append :
    ∀ (l₁ l₂ : List MatchEntry) (uA uB : List Nat),
      selectGreedy (l₁ ++ l₂) uA uB =
        ((selectGreedy l₁ uA uB).1 ++
            (selectGreedy l₂ (selectGreedy l₁ uA uB).2.1 (selectGreedy l₁ uA uB).2.2).1,
          (selectGreedy l₂ (selectGreedy l₁ uA uB).2.1 (selectGreedy l₁ uA uB).2.2).2.1,
          (selectGreedy l₂ (selectGreedy l₁ uA uB).2.1 (selectGreedy l₁ uA uB).2.2).2.2)
  | [], l₂, uA, uB => rfl
  | m :: l₁, l₂, uA, uB => by
    rw [List.cons_append]
    by_cases h : (uA.contains m.indexA || uB.contains m.indexB) = true
    · rw [selectGreedy_cons_skip h, selectGreedy_cons_skip h]
      exact selectGreedy_append l₁ l₂ uA uB
    · rw [selectGreedy_cons_take h, selectGreedy_cons_take h,
        selectGreedy_append l₁ l₂ (m.indexA :: uA) (m.indexB :: uB)]
      simp

/-- Entries whose row is already used are all skipped. -/
theorem selectGreedy_skip_all :
    ∀ (l : List MatchEntry) (uA uB : List Nat),
      (∀ m ∈ l, uA.contains m.indexA = true) →
      selectGreedy l uA uB = ([], uA, uB)
  | [], _, _, _ => rfl
  | m :: l, uA, uB, h => by
    rw [selectGreedy_cons_skip (by rw [h m (List.mem_cons_self m l)]; rfl),
      selectGreedy_skip_all l uA uB fun x hx => h x (List.mem_cons_of_mem _ hx)]

/-- Entries with pairwise-distinct rows and pairwise-distinct columns,
none already used, are all selected. -/
theorem selectGreedy_all :
    ∀ (l : List MatchEntry) (uA uB : List Nat),
      (∀ m ∈ l, uA.contains m.indexA = false ∧ uB.contains m.indexB = false) →
      List.Pairwise (fun x y => x.indexA ≠ y.indexA ∧ x.indexB ≠ y.indexB) l →
      (selectGreedy l uA uB).1 = l ∧
      (∀ i, ((selectGreedy l uA uB).2.1.contains i = true ↔
        (uA.contains i = true ∨ ∃ m ∈ l, m.indexA = i))) ∧
      (∀ i, ((selectGreedy l uA uB).2.2.contains i = true ↔
        (uB.contains i = true ∨ ∃ m ∈ l, m.indexB = i)))
  | [], uA, uB, _, _ =>
    ⟨rfl,
     fun i => by simp [show selectGreedy ([] : List MatchEntry) uA uB = ([], uA, uB) from rfl],
     fun i => by simp [show selectGreedy ([] : List MatchEntry) uA uB = ([], uA, uB) from rfl]⟩
  | m :: l, uA, uB, hfresh, hpw => by
    have hm := hfresh m (List.mem_cons_self m l)
    rw [selectGreedy_cons_take (by rw [hm.1, hm.2]; simp)]
    obtain ⟨hhead, htail⟩ := List.pairwise_cons.mp hpw
    have ih := selectGreedy_all l (m.indexA :: uA) (m.indexB :: uB)
      (fun x hx => by
        have hx' := hfresh x (List.mem_cons_of_mem _ hx)
        have hd := hhead x hx
        constructor
        · show ((x.indexA == m.indexA) || uA.contains x.indexA) = false
          rw [hx'.1]
          simpa using fun he => (hd.1 he.symm)
        · show ((x.indexB == m.indexB) || uB.contains x.indexB) = false
          rw [hx'.2]
          simpa using fun he => (hd.2 he.symm))
      htail
    refine ⟨by rw [ih.1], fun i => ?_, fun i => ?_⟩
    · rw [ih.2.1 i]
      show _ ↔ _ ∨ ∃ x ∈ m :: l, x.indexA = i
      constructor
      · rintro (h | h)
        · rcases (by simpa using h : i = m.indexA ∨ uA.contains i = true) with rfl | h'
          · exact Or.inr ⟨m, List.mem_cons_self m l, rfl⟩
          · exact Or.inl h'
        · obtain ⟨x, hx, rfl⟩ := h
          exact Or.inr ⟨x, List.mem_cons_of_mem _ hx, rfl⟩
      · rintro (h | ⟨x, hx, rfl⟩)
        · refine Or.inl ?_
          have hi : i ∈ uA := by simpa using h
          simp [hi]
        · rcases List.mem_cons.mp hx with rfl | hx'
          · exact Or.inl (by simp)
          · exact Or.inr ⟨x, hx', rfl⟩
    · rw [ih.2.2 i]
      show _ ↔ _ ∨ ∃ x ∈ m :: l, x.indexB = i
      constructor
      · rintro (h | h)
        · rcases (by simpa using h : i = m.indexB ∨ uB.contains i = true) with rfl | h'
          · exact Or.inr ⟨m, List.mem_cons_self m l, rfl⟩
          · exact Or.inl h'
        · obtain ⟨x, hx, rfl⟩ := h
          exact Or.inr ⟨x, List.mem_cons_of_mem _ hx, rfl⟩
      · rintro (h | ⟨x, hx, rfl⟩)
        · refine Or.inl ?_
          have hi : i ∈ uB := by simpa using h
          simp [hi]
        · rcases List.mem_cons.mp hx with rfl | hx'
          · exact Or.inl (by simp)
          · exact Or.inr ⟨x, hx', rfl⟩

/-- Lexicographic order on match entries, the discovery order of the
all-pairs list (`i`-major, then `j`). -/
def entryLexLt (x y : MatchEntry) : Prop :=
  x.indexA < y.indexA ∨ (x.indexA = y.indexA ∧ x.indexB < y.indexB)

/-- The used-row and used-column sets only grow along the greedy scan. -/
theorem selectGreedy_used_mono :
    ∀ (l : List MatchEntry) (uA uB : List Nat),
      (∀ i, i ∈ uA → i ∈ (selectGreedy l uA uB).2.1) ∧
      (∀ i, i ∈ uB → i ∈ (selectGreedy l uA uB).2.2)
  | [], _, _ => ⟨fun _ h => h, fun _ h => h⟩
  | m :: l, uA, uB => by
    by_cases hblk : (uA.contains m.indexA || uB.contains m.indexB) = true
    · rw [selectGreedy_cons_skip hblk]
      exact selectGreedy_used_mono l uA uB
    · rw [selectGreedy_cons_take hblk]
      have ih := selectGreedy_used_mono l (m.indexA :: uA) (m.indexB :: uB)
      exact ⟨fun i h => ih.1 i (List.mem_cons_of_mem _ h),
             fun i h => ih.2 i (List.mem_cons_of_mem _ h)⟩

/-- On a lexicographically sorted entry list in which every off-diagonal
entry is preceded by the diagonal entry of its smaller index (or that
index is already used), with used-row and used-column sets equal as sets,
the greedy scan selects only diagonal entries and ends with every listed
diagonal index in both used sets. -/
theorem selectGreedy_diag :
    ∀ (l : List MatchEntry) (uA uB : List Nat),
      List.Pairwise entryLexLt l →
      (∀ i, i ∈ uA ↔ i ∈ uB) →
      (∀ m ∈ l, m.indexA ≠ m.indexB →
        min m.indexA m.indexB ∈ uA ∨
          ∃ m', m' ∈ l ∧ m'.indexA = min m.indexA m.indexB ∧
            m'.indexB = min m.indexA m.indexB ∧ entryLexLt m' m) →
      (∀ m ∈ (selectGreedy l uA uB).1, m.indexA = m.indexB) ∧
      (∀ d, (∃ m, m ∈ l ∧ m.indexA = d ∧ m.indexB = d) →
        d ∈ (selectGreedy l uA uB).2.1 ∧ d ∈ (selectGreedy l uA uB).2.2)
  | [], _, _, _, _, _ => by
    refine ⟨fun m hm => absurd hm (List.not_mem_nil m), fun d hd => ?_⟩
    obtain ⟨m, hm, _⟩ := hd
    exact absurd hm (List.not_mem_nil m)
  | h :: l, uA, uB, hsort, hAB, hdiag => by
    obtain ⟨hhead, htail⟩ := List.pairwise_cons.mp hsort
    by_cases hdg : h.indexA = h.indexB
    · by_cases hblk : (uA.contains h.indexA || uB.contains h.indexB) = true
      · have hinA : h.indexA ∈ uA := by
          rcases Bool.or_eq_true_iff.mp hblk with hc | hc
          · simpa using hc
          · exact (hAB h.indexA).mpr (by rw [hdg]; simpa using hc)
        rw [selectGreedy_cons_skip hblk]
        have hdiag' : ∀ m ∈ l, m.indexA ≠ m.indexB →
            min m.indexA m.indexB ∈ uA ∨
              ∃ m', m' ∈ l ∧ m'.indexA = min m.indexA m.indexB ∧
                m'.indexB = min m.indexA m.indexB ∧ entryLexLt m' m := by
          intro m hm hne
          rcases hdiag m (List.mem_cons_of_mem _ hm) hne with hin | ⟨m', hm', hA', hB', hlt⟩
          · exact Or.inl hin
          · rcases List.mem_cons.mp hm' with rfl | hm''
            · exact Or.inl (hA' ▸ hinA)
            · exact Or.inr ⟨m', hm'', hA', hB', hlt⟩
        have ih := selectGreedy_diag l uA uB htail hAB hdiag'
        refine ⟨ih.1, fun d hd => ?_⟩
        obtain ⟨m, hm, hma, hmb⟩ := hd
        rcases List.mem_cons.mp hm with rfl | hm'
        · exact ⟨(selectGreedy_used_mono l uA uB).1 d (hma ▸ hinA),
            (selectGreedy_used_mono l uA uB).2 d ((hAB d).mp (hma ▸ hinA))⟩
        · exact ih.2 d ⟨m, hm', hma, hmb⟩
      · rw [selectGreedy_cons_take hblk]
        have hAB' : ∀ i, i ∈ (h.indexA :: uA) ↔ i ∈ (h.indexB :: uB) := by
          intro i
          simp only [List.mem_cons, hAB i, hdg]
        have hdiag' : ∀ m ∈ l, m.indexA ≠ m.indexB →
            min m.indexA m.indexB ∈ (h.indexA :: uA) ∨
              ∃ m', m' ∈ l ∧ m'.indexA = min m.indexA m.indexB ∧
                m'.indexB = min m.indexA m.indexB ∧ entryLexLt m' m := by
          intro m hm hne
          rcases hdiag m (List.mem_cons_of_mem _ hm) hne with hin | ⟨m', hm', hA', hB', hlt⟩
          · exact Or.inl (List.mem_cons_of_mem _ hin)
          · rcases List.mem_cons.mp hm' with rfl | hm''
            · exact Or.inl (hA' ▸ List.mem_cons_self _ _)
            · exact Or.inr ⟨m', hm'', hA', hB', hlt⟩
        have ih := selectGreedy_diag l (h.indexA :: uA) (h.indexB :: uB) htail hAB' hdiag'
        refine ⟨fun m hm => ?_, fun d hd => ?_⟩
        · rcases List.mem_cons.mp hm with rfl | hm'
          · exact hdg
          · exact ih.1 m hm'
        · obtain ⟨m, hm, hma, hmb⟩ := hd
          rcases List.mem_cons.mp hm with rfl | hm'
          · exact ⟨(selectGreedy_used_mono l _ _).1 d (hma ▸ List.mem_cons_self _ _),
              (selectGreedy_used_mono l _ _).2 d (hmb ▸ List.mem_cons_self _ _)⟩
          · exact ih.2 d ⟨m, hm', hma, hmb⟩
    · rcases hdiag h (List.mem_cons_self _ _) hdg with hin | ⟨m', hm', hA', hB', hlt⟩
      · have hblk : (uA.contains h.indexA || uB.contains h.indexB) = true := by
          rcases Nat.le_total h.indexA h.indexB with hle | hle
          · have hi : h.indexA ∈ uA := by rwa [min_eq_left hle] at hin
            simp [hi]
          · have hi : h.indexB ∈ uB := (hAB _).mp (by rwa [min_eq_right hle] at hin)
            simp [hi]
        rw [selectGreedy_cons_skip hblk]
        have hdiag' : ∀ m ∈ l, m.indexA ≠ m.indexB →
            min m.indexA m.indexB ∈ uA ∨
              ∃ m', m' ∈ l ∧ m'.indexA = min m.indexA m.indexB ∧
                m'.indexB = min m.indexA m.indexB ∧ entryLexLt m' m := by
          intro m hm hne
          rcases hdiag m (List.mem_cons_of_mem _ hm) hne with hin' | ⟨m', hm', hA', hB', hlt⟩
          · exact Or.inl hin'
          · rcases List.mem_cons.mp hm' with rfl | hm''
            · exact absurd (hA'.trans hB'.symm) hdg
            · exact Or.inr ⟨m', hm'', hA', hB', hlt⟩
        have ih := selectGreedy_diag l uA uB htail hAB hdiag'
        refine ⟨ih.1, fun d hd => ?_⟩
        obtain ⟨m, hm, hma, hmb⟩ := hd
        rcases List.mem_cons.mp hm with rfl | hm'
        · exact absurd (hma.trans hmb.symm) hdg
        · exact ih.2 d ⟨m, hm', hma, hmb⟩
      · rcases List.mem_cons.mp hm' with rfl | hm''
        · exact absurd (hA'.trans hB'.symm) hdg
        · exfalso
          have h1 := hhead m' hm''
          unfold entryLexLt at hlt h1
          omega

theorem enumFrom_pairwise_fst {α} :
    ∀ (k : Nat) (l : List α), (l.enumFrom k).Pairwise fun p q => p.1 < q.1
  | _, [] => List.Pairwise.nil
  | k, a :: l => by
    rw [List.enumFrom_cons]
    refine List.pairwise_cons.mpr ⟨fun q hq => ?_, enumFrom_pairwise_fst (k + 1) l⟩
    exact lt_of_lt_of_le (Nat.lt_succ_self k) (List.le_fst_of_mem_enumFrom hq)

/-- The all-pairs list is in strict lexicographic order of (row, column). -/
theorem valuePairs_pairwise {cmp} (a b : SD) :
    List.Pairwise entryLexLt (valuePairs cmp a b) := by
  unfold valuePairs
  rw [List.pairwise_flatMap]
  constructor
  · intro ia _
    rw [List.pairwise_map]
    refine (enumFrom_pairwise_fst 0 b.elements).imp ?_
    intro p q hpq
    exact Or.inr ⟨rfl, hpq⟩
  · refine (enumFrom_pairwise_fst 0 a.elements).imp ?_
    intro p q hpq x hx y hy
    obtain ⟨jb, _, rfl⟩ := List.mem_map.mp hx
    obtain ⟨jb', _, rfl⟩ := List.mem_map.mp hy
    exact Or.inl hpq

/-- Introduction form of membership in the all-pairs list. -/
theorem valuePairs_mem {cmp} {a b : SD} {i j : Nat} {x y : SD}
    (hx : a.elements[i]? = some x) (hy : b.elements[j]? = some y) :
    MatchEntry.mk i j (cmp (some x) (some y) []) (cmp (some x) (some y) []).cost ∈
      valuePairs cmp a b := by
  unfold valuePairs
  refine List.mem_flatMap.mpr ⟨(i, x), List.mk_mem_enum_iff_getElem?.mpr hx, ?_⟩
  exact List.mem_map.mpr ⟨(j, y), List.mk_mem_enum_iff_getElem?.mpr hy, rfl⟩

/-- Elimination form of membership in the all-pairs list. -/
theorem mem_valuePairs {cmp} {a b : SD} {m : MatchEntry}
    (hm : m ∈ valuePairs cmp a b) :
    ∃ x y, a.elements[m.indexA]? = some x ∧ b.elements[m.indexB]? = some y ∧
      m = MatchEntry.mk m.indexA m.indexB (cmp (some x) (some y) [])
            (cmp (some x) (some y) []).cost := by
  unfold valuePairs at hm
  obtain ⟨ia, hia, hm'⟩ := List.mem_flatMap.mp hm
  obtain ⟨jb, hjb, rfl⟩ := List.mem_map.mp hm'
  cases ia with
  | mk i x =>
    cases jb with
    | mk j y =>
      exact ⟨x, y, List.mk_mem_enum_iff_getElem?.mp hia,
        List.mk_mem_enum_iff_getElem?.mp hjb, rfl⟩

theorem valuePairs_lt {cmp} {a b : SD} {m : MatchEntry}
    (hm : m ∈ valuePairs cmp a b) :
    m.indexA < a.elements.length ∧ m.indexB < b.elements.length := by
  obtain ⟨x, y, hx, hy, _⟩ := mem_valuePairs hm
  exact ⟨(List.getElem?_eq_some.mp hx).1, (List.getElem?_eq_some.mp hy).1⟩

theorem compareCore_none_none (e : DiffOptions) (n : Nat) (p : List String) :
    compareCore e n none none p = .mk .same p none none [] none := by
  cases n <;> rfl

theorem stringPayloadEqual_refl (e : DiffOptions) (x : GoValue) :
    stringPayloadEqual e x x = true := by
  simp [stringPayloadEqual]

theorem compareLinePair_self (e : DiffOptions) (x : Option String) (p : List String) :
    (compareLinePair e x x p).status = .same := by
  cases x with
  | none => rfl
  | some s =>
    show DiffResult.status
      (if stringPayloadEqual e (.vStr s) (.vStr s) then _ else _) = _
    rw [if_pos (stringPayloadEqual_refl e _)]
    rfl

/-- `equalNumbers` is reflexive away from NaN. -/
theorem equalNumbers_refl {x : GoValue} (hx : x ≠ .vFloat .nan) :
    equalNumbers x x = true := by
  cases x with
  | vNone => rfl
  | vBool b => rfl
  | vStr s => rfl
  | vInt n => simp [equalNumbers, toInt64]
  | vFloat f =>
    cases f with
    | nan => exact absurd rfl hx
    | val q =>
      by_cases hc : q.den = 1 ∧ -(2 ^ 63) ≤ q.num ∧ q.num < 2 ^ 63
      · have h1 : toInt64 (.vFloat (.val q)) = some q.num := by
          show (if q.den = 1 ∧ -(2 ^ 63) ≤ q.num ∧ q.num < 2 ^ 63
            then some q.num else none) = _
          rw [if_pos hc]
        unfold equalNumbers
        rw [h1]
        simp
      · have h1 : toInt64 (.vFloat (.val q)) = none := by
          show (if q.den = 1 ∧ -(2 ^ 63) ≤ q.num ∧ q.num < 2 ^ 63
            then some q.num else none) = _
          rw [if_neg hc]
        unfold equalNumbers
        rw [h1]
        show GoFloat.feq (.val q) (.val q) = true
        simp [GoFloat.feq]

theorem DiffResult.cost_mk_some (s p f t cs c) :
    (DiffResult.mk s p f t cs (some ⟨c⟩)).cost = c := rfl

theorem DiffResult.cost_mk_none (s p f t cs) :
    (DiffResult.mk s p f t cs none).cost = 0 := rfl

/-- NaN-freedom of a tree: no payload anywhere in the tree is the float
NaN. -/
inductive NanFree : SD → Prop where
  | mk : ∀ (t : DataType) (v : GoValue) (cs : List (String × SD)) (es : List SD),
      v ≠ .vFloat .nan →
      (∀ kv ∈ cs, NanFree kv.2) →
      (∀ x ∈ es, NanFree x) →
      NanFree (SD.mk t v cs es)

theorem NanFree.payload {d : SD} (h : NanFree d) : d.value ≠ .vFloat .nan := by
  cases h with
  | mk t v cs es hv hcs hes => simpa using hv

theorem NanFree.child {d : SD} (h : NanFree d) {kv : String × SD}
    (hkv : kv ∈ d.children) : NanFree kv.2 := by
  cases h with
  | mk t v cs es hv hcs hes => exact hcs kv (by simpa using hkv)

theorem NanFree.element {d : SD} (h : NanFree d) {x : SD}
    (hx : x ∈ d.elements) : NanFree x := by
  cases h with
  | mk t v cs es hv hcs hes => exact hes x (by simpa using hx)

/-- If the greedy value matching selected only `Same` comparisons and its
used sets cover every row and column index, the value-strategy array node
is `Same` with diff count 0. -/
theorem compareArraysByValueW_same {cmp} {a b : SD} (p : List String)
    (hsel : ∀ m ∈ (valueSelection cmp a b).1, m.diff.status = .same)
    (hR : ∀ i, i < a.elements.length → i ∈ (valueSelection cmp a b).2.1)
    (hC : ∀ j, j < b.elements.length → j ∈ (valueSelection cmp a b).2.2) :
    (compareArraysByValueW cmp a b p).status = .same ∧
    (compareArraysByValueW cmp a b p).cost = 0 := by
  have hdel : valueDelChildren cmp a b p = [] := by
    have hf : (a.elements.enum.filter fun ia =>
        !(valueSelection cmp a b).2.1.contains ia.1) = [] := by
      rw [List.filter_eq_nil_iff]
      intro ia hia
      cases ia with
      | mk i x =>
        have hx := List.mk_mem_enum_iff_getElem?.mp hia
        have hin := hR i (List.getElem?_eq_some.mp hx).1
        simp [hin]
    unfold valueDelChildren
    rw [hf, List.map_nil]
  have hadd : valueAddChildren cmp a b p = [] := by
    have hf : (b.elements.enum.filter fun jb =>
        !(valueSelection cmp a b).2.2.contains jb.1) = [] := by
      rw [List.filter_eq_nil_iff]
      intro jb hjb
      cases jb with
      | mk j y =>
        have hy := List.mk_mem_enum_iff_getElem?.mp hjb
        have hin := hC j (List.getElem?_eq_some.mp hy).1
        simp [hin]
    unfold valueAddChildren
    rw [hf, List.map_nil]
  have hmat : ∀ c ∈ valueMatchedChildren cmp a b p, c.status = .same := by
    intro c hc
    obtain ⟨m, hmsel, rfl⟩ := List.mem_map.mp hc
    rw [DiffResult.withPath_status]
    exact hsel m hmsel
  have hcond : ((valueDelChildren cmp a b p).isEmpty &&
      (valueAddChildren cmp a b p).isEmpty &&
      ((valueMatchedChildren cmp a b p).all fun c => c.status == .same)) = true := by
    rw [hdel, hadd]
    simp only [List.isEmpty_nil, Bool.true_and]
    exact List.all_eq_true.mpr fun c hc => by simp [hmat c hc]
  constructor
  · simp only [compareArraysByValueW, DiffResult.status_mk]
    rw [if_pos hcond]
  · simp only [compareArraysByValueW, DiffResult.cost_mk_some]
    rw [hdel, hadd]
    simp only [List.map_nil, List.sum_nil, Nat.zero_add]
    rw [List.sum_eq_zero]
    intro x hx
    obtain ⟨c, hc, rfl⟩ := List.mem_map.mp hx
    simp [hmat c hc]

/-- When the zero-cost phase of the greedy scan already uses the row of
every pair, the positive-cost phase selects nothing and the whole
selection equals the zero-cost phase. -/
theorem valueSelection_phase1 {cmp} (a b : SD)
    (hused : ∀ m ∈ valuePairs cmp a b,
      ((selectGreedy ((valuePairs cmp a b).filter fun m => m.cost == 0) [] []).2.1).contains
        m.indexA = true) :
    valueSelection cmp a b =
      selectGreedy ((valuePairs cmp a b).filter fun m => m.cost == 0) [] [] := by
  unfold valueSelection
  rw [insertionSort_zero_front, selectGreedy_append]
  have hskip : ∀ m ∈ ((valuePairs cmp a b).filter fun m => !(m.cost == 0)).insertionSort
      (fun x y => x.cost ≤ y.cost),
      ((selectGreedy ((valuePairs cmp a b).filter fun m => m.cost == 0) [] []).2.1).contains
        m.indexA = true := by
    intro m hm
    have hmem : m ∈ (valuePairs cmp a b).filter fun m => !(m.cost == 0) :=
      (List.Perm.mem_iff (List.perm_insertionSort _ _)).mp hm
    exact hused m (List.mem_of_mem_filter hmem)
  rw [selectGreedy_skip_all _ _ _ hskip]
  simp

/-- Unfolding equation of the comparator at positive fuel on two present
nodes. -/
theorem compareCore_succ (e : DiffOptions) (n : Nat) (a b : SD) (p : List String) :
    compareCore e (n + 1) (some a) (some b) p =
      if a.typ != b.typ then
        .mk .modified p (some a) (some b) []
          (some ⟨calcSize n (some a) + calcSize n (some b)⟩)
      else
        match a.typ with
        | .typeNull => .mk .same p (some a) (some b) [] none
        | .typeBool =>
          if a.value == b.value then .mk .same p (some a) (some b) [] none
          else .mk .modified p (some a) (some b) [] (some ⟨1⟩)
        | .typeString =>
          if shouldDoLineDiff a b then
            match a.value, b.value with
            | .vStr s, .vStr t => compareMultilineStringsW e a b s t p
            | _, _ => .mk .same p (some a) (some b) [] none
          else if stringPayloadEqual e a.value b.value then
            .mk .same p (some a) (some b) [] none
          else .mk .modified p (some a) (some b) [] (some ⟨1⟩)
        | .typeNumber =>
          if equalNumbers a.value b.value then .mk .same p (some a) (some b) [] none
          else .mk .modified p (some a) (some b) [] (some ⟨1⟩)
        | .typeArray =>
          if e.arrayDiffStrategy == .value then
            compareArraysByValueW (fun x y q => compareCore e n x y q) a b p
          else
            compareArraysByIndexW (fun x y q => compareCore e n x y q) a b p
        | .typeObject => compareObjectsW e (fun x y q => compareCore e n x y q) a b p
      := rfl

/-- The multiline splitter on a string and itself: all line pairs agree,
so the node is `Same` with count 0. -/
theorem compareMultilineStringsW_self (e : DiffOptions) (v : SD) (s : String)
    (p : List String) :
    (compareMultilineStringsW e v v s s p).status = .same ∧
    (compareMultilineStringsW e v v s s p).cost = 0 := by
  have hall : ∀ c ∈ (List.range (max (goSplitLines s).length (goSplitLines s).length)).map
      (fun i => compareLinePair e (goSplitLines s)[i]? (goSplitLines s)[i]? (p ++ [idxSeg i])),
      c.status = .same := by
    intro c hc
    obtain ⟨i, _, rfl⟩ := List.mem_map.mp hc
    exact compareLinePair_self e _ _
  constructor
  · simp only [compareMultilineStringsW, DiffResult.status_mk]
    exact accumStatus_of_all hall
  · simp only [compareMultilineStringsW, DiffResult.cost_mk_some]
    exact accumCount_of_all hall

/-- The index-strategy matcher on an array and itself is `Same` with
count 0 whenever the per-position comparator is reflexive. -/
theorem compareArraysByIndexW_refl {cmp : Option SD → Option SD → List String → DiffResult}
    (v : SD) (p : List String)
    (hrefl : ∀ (i : Nat) (q : List String),
      (cmp v.elements[i]? v.elements[i]? q).status = .same) :
    (compareArraysByIndexW cmp v v p).status = .same ∧
    (compareArraysByIndexW cmp v v p).cost = 0 := by
  have hall : ∀ c ∈ (List.range (max v.elements.length v.elements.length)).map
      (fun i => cmp v.elements[i]? v.elements[i]? (p ++ [idxSeg i])), c.status = .same := by
    intro c hc
    obtain ⟨i, _, rfl⟩ := List.mem_map.mp hc
    exact hrefl i _
  constructor
  · simp only [compareArraysByIndexW, DiffResult.status_mk]
    exact accumStatus_of_all hall
  · simp only [compareArraysByIndexW, DiffResult.cost_mk_some]
    exact accumCount_of_all hall

/-- The object comparator on an object and itself is `Same` with count 0
whenever the per-key comparator is reflexive (both key-case modes). -/
theorem compareObjectsW_refl (e : DiffOptions)
    {cmp : Option SD → Option SD → List String → DiffResult}
    (v : SD) (p : List String)
    (hrefl : ∀ (ok : Option String) (q : List String),
      (cmp (ok.bind (lookupChild v)) (ok.bind (lookupChild v)) q).status = .same) :
    (compareObjectsW e cmp v v p).status = .same ∧
    (compareObjectsW e cmp v v p).cost = 0 := by
  unfold compareObjectsW
  by_cases hkc : e.ignoreKeyCase = true
  · rw [if_pos hkc]
    have hall : ∀ c ∈ ((sortStrings
        (((v.children.map Prod.fst ++ v.children.map Prod.fst).map goToLower).dedup)).filter
          fun lk => !(shouldIgnore e ((lowerKeyOrig v.children lk).bind (lookupChild v)) &&
            shouldIgnore e ((lowerKeyOrig v.children lk).bind (lookupChild v)))).map
        (fun lk => cmp ((lowerKeyOrig v.children lk).bind (lookupChild v))
          ((lowerKeyOrig v.children lk).bind (lookupChild v))
          (p ++ [if (lowerKeyOrig v.children lk).isSome &&
              ((match lowerKeyOrig v.children lk with
                | some k => k
                | none => "") == "")
            then (lowerKeyOrig v.children lk).getD ""
            else match lowerKeyOrig v.children lk with
              | some k => k
              | none => ""])), c.status = .same := by
      intro c hc
      obtain ⟨lk, _, rfl⟩ := List.mem_map.mp hc
      exact hrefl (lowerKeyOrig v.children lk) _
    constructor
    · simp only [compareObjectsIgnoreCaseW, DiffResult.status_mk]
      exact accumStatus_of_all hall
    · simp only [compareObjectsIgnoreCaseW, DiffResult.cost_mk_some]
      exact accumCount_of_all hall
  · rw [if_neg hkc]
    have hall : ∀ c ∈ ((unionKeys v v).filter fun k =>
        !(shouldIgnore e (lookupChild v k) && shouldIgnore e (lookupChild v k))).map
        (fun k => cmp (lookupChild v k) (lookupChild v k) (p ++ [k])), c.status = .same := by
      intro c hc
      obtain ⟨k, _, rfl⟩ := List.mem_map.mp hc
      exact hrefl (some k) _
    constructor
    · simp only [DiffResult.status_mk]
      exact accumStatus_of_all hall
    · simp only [DiffResult.cost_mk_some]
      exact accumCount_of_all hall

/-- The value-strategy matcher on an array and itself is `Same` with
count 0 whenever the element comparator is reflexive (with cost 0) on the
elements: the sorted pair list opens with the zero-cost pairs in
lexicographic order, the greedy scan then matches every element to itself
(off-diagonal zero-cost pairs are blocked by the earlier diagonal of
their smaller index), and the used sets cover all indices. -/
theorem compareArraysByValueW_refl {cmp : Option SD → Option SD → List String → DiffResult}
    (v : SD) (p : List String)
    (hrefl : ∀ x ∈ v.elements, (cmp (some x) (some x) []).status = .same ∧
      (cmp (some x) (some x) []).cost = 0) :
    (compareArraysByValueW cmp v v p).status = .same ∧
    (compareArraysByValueW cmp v v p).cost = 0 := by
  have hx : ∀ i, i < v.elements.length →
      ∃ x, v.elements[i]? = some x ∧ x ∈ v.elements := by
    intro i hi
    cases hxi : v.elements[i]? with
    | none => rw [List.getElem?_eq_none_iff] at hxi; omega
    | some x => exact ⟨x, rfl, List.getElem?_mem hxi⟩
  have hdiagE : ∀ i, i < v.elements.length →
      ∃ m, m ∈ ((valuePairs cmp v v).filter fun m => m.cost == 0) ∧
        m.indexA = i ∧ m.indexB = i := by
    intro i hi
    obtain ⟨x, hxi, hxm⟩ := hx i hi
    have hih := hrefl x hxm
    refine ⟨MatchEntry.mk i i (cmp (some x) (some x) []) (cmp (some x) (some x) []).cost,
      List.mem_filter.mpr ⟨valuePairs_mem hxi hxi, ?_⟩, rfl, rfl⟩
    show ((cmp (some x) (some x) []).cost == 0) = true
    simp [hih.2]
  have hzsort : List.Pairwise entryLexLt ((valuePairs cmp v v).filter fun m => m.cost == 0) :=
    List.Pairwise.sublist (List.filter_sublist _) (valuePairs_pairwise v v)
  have hdiaghyp : ∀ m ∈ ((valuePairs cmp v v).filter fun m => m.cost == 0),
      m.indexA ≠ m.indexB →
      min m.indexA m.indexB ∈ ([] : List Nat) ∨
        ∃ m', m' ∈ ((valuePairs cmp v v).filter fun m => m.cost == 0) ∧
          m'.indexA = min m.indexA m.indexB ∧ m'.indexB = min m.indexA m.indexB ∧
          entryLexLt m' m := by
    intro m hm hne
    have hlt := valuePairs_lt (List.mem_of_mem_filter hm)
    have hminlt : min m.indexA m.indexB < v.elements.length :=
      lt_of_le_of_lt (min_le_left _ _) hlt.1
    obtain ⟨m', hm', hA', hB'⟩ := hdiagE _ hminlt
    refine Or.inr ⟨m', hm', hA', hB', ?_⟩
    unfold entryLexLt
    rcases Nat.lt_or_ge m.indexA m.indexB with hab | hab
    · have hmin : min m.indexA m.indexB = m.indexA := min_eq_left (Nat.le_of_lt hab)
      rw [hA', hmin]
      exact Or.inr ⟨rfl, by rw [hB', hmin]; exact hab⟩
    · have hab' : m.indexB < m.indexA := Nat.lt_of_le_of_ne hab fun h => hne h.symm
      have hmin : min m.indexA m.indexB = m.indexB := min_eq_right (Nat.le_of_lt hab')
      rw [hA', hmin]
      exact Or.inl hab'
  have hdg := selectGreedy_diag ((valuePairs cmp v v).filter fun m => m.cost == 0) [] []
    hzsort (fun _ => Iff.rfl) hdiaghyp
  have hcov : ∀ i, i < v.elements.length →
      i ∈ (selectGreedy ((valuePairs cmp v v).filter fun m => m.cost == 0) [] []).2.1 ∧
      i ∈ (selectGreedy ((valuePairs cmp v v).filter fun m => m.cost == 0) [] []).2.2 := by
    intro i hi
    obtain ⟨m, hm, hA, hB⟩ := hdiagE i hi
    exact hdg.2 i ⟨m, hm, hA, hB⟩
  have hphase : valueSelection cmp v v =
      selectGreedy ((valuePairs cmp v v).filter fun m => m.cost == 0) [] [] := by
    apply valueSelection_phase1
    intro m hm
    have hin := (hcov m.indexA (valuePairs_lt hm).1).1
    simpa using hin
  refine compareArraysByValueW_same p ?_ ?_ ?_
  · intro m hm
    rw [hphase] at hm
    have hdiagm := hdg.1 m hm
    obtain ⟨x, y, hxe, hye, hmeq⟩ :=
      mem_valuePairs (List.mem_of_mem_filter (selectGreedy_subset _ _ _ m hm))
    rw [hdiagm] at hxe
    obtain rfl : x = y := Option.some.inj (hxe.symm.trans hye)
    have hdiff : m.diff = cmp (some x) (some x) [] := by rw [hmeq]
    rw [hdiff]
    exact (hrefl x (List.getElem?_mem hye)).1
  · intro i hi
    rw [hphase]
    exact (hcov i hi).1
  · intro j hj
    rw [hphase]
    exact (hcov j hj).2

/-- Reflexivity of the comparator on NaN-free trees: comparing a tree
with itself yields `Same` with diff count 0, for every option set, every
fuel and every path. -/
theorem compareCore_refl :
    ∀ (n : Nat) (e : DiffOptions) (v : SD) (p : List String), NanFree v →
      (compareCore e n (some v) (some v) p).status = .same ∧
      (compareCore e n (some v) (some v) p).cost = 0 := by
  intro n
  induction n with
  | zero => intro e v p _; exact ⟨rfl, rfl⟩
  | succ n ih =>
    intro e v p hnf
    rw [compareCore_succ, show (v.typ != v.typ) = false from by simp, if_neg (by simp)]
    split
    · exact ⟨rfl, rfl⟩
    · rw [show (v.value == v.value) = true from by simp]
      exact ⟨rfl, rfl⟩
    · by_cases hld : shouldDoLineDiff v v = true
      · rw [if_pos hld]
        cases hval : v.value with
        | vStr s => exact compareMultilineStringsW_self e v s p
        | vNone => exact ⟨rfl, rfl⟩
        | vBool b => exact ⟨rfl, rfl⟩
        | vInt m => exact ⟨rfl, rfl⟩
        | vFloat f => exact ⟨rfl, rfl⟩
      · rw [if_neg hld, if_pos (stringPayloadEqual_refl e _)]
        exact ⟨rfl, rfl⟩
    · rw [equalNumbers_refl hnf.payload]
      exact ⟨rfl, rfl⟩
    · by_cases hstrat : (e.arrayDiffStrategy == ArrayDiffStrategy.value) = true
      · rw [if_pos hstrat]
        exact compareArraysByValueW_refl v p fun x hx => ih e x [] (hnf.element hx)
      · rw [if_neg hstrat]
        refine compareArraysByIndexW_refl v p ?_
        intro i q
        show (compareCore e n v.elements[i]? v.elements[i]? q).status = .same
        cases hxi : v.elements[i]? with
        | none => rw [compareCore_none_none]; rfl
        | some x => exact (ih e x q (hnf.element (List.getElem?_mem hxi))).1
    · refine compareObjectsW_refl e v p ?_
      intro ok q
      cases ok with
      | none =>
        show (compareCore e n none none q).status = .same
        rw [compareCore_none_none]
        rfl
      | some k =>
        show (compareCore e n (lookupChild v k) (lookupChild v k) q).status = .same
        cases hlk : lookupChild v k with
        | none => rw [compareCore_none_none]; rfl
        | some c => exact (ih e c q (hnf.child (lookup_mem hlk))).1

/-- The object comparator in exact-key mode on an object and itself is
`Same` with count 0 whenever the per-key comparator is reflexive. -/
theorem compareObjectsW_exact_refl (e : DiffOptions)
    {cmp : Option SD → Option SD → List String → DiffResult}
    (v : SD) (p : List String) (hkc : e.ignoreKeyCase = false)
    (hrefl : ∀ (k : String) (q : List String),
      (cmp (lookupChild v k) (lookupChild v k) q).status = .same) :
    (compareObjectsW e cmp v v p).status = .same ∧
    (compareObjectsW e cmp v v p).cost = 0 := by
  unfold compareObjectsW
  rw [if_neg (by rw [hkc]; simp)]
  have hall : ∀ c ∈ ((unionKeys v v).filter fun k =>
      !(shouldIgnore e (lookupChild v k) && shouldIgnore e (lookupChild v k))).map
      (fun k => cmp (lookupChild v k) (lookupChild v k) (p ++ [k])), c.status = .same := by
    intro c hc
    obtain ⟨k, _, rfl⟩ := List.mem_map.mp hc
    exact hrefl k _
  constructor
  · simp only [DiffResult.status_mk]
    exact accumStatus_of_all hall
  · simp only [DiffResult.cost_mk_some]
    exact accumCount_of_all hall

/-- Reflexivity of the comparator on NaN-free trees, restricted to the
deterministic option paths: exact key matching and the index array
strategy.  The proof never enters `compareObjectsIgnoreCaseW` or the
value-strategy matcher, whose Go counterparts iterate maps in randomized
order and sort candidate pairs with an unstable tie order. -/
theorem compareCore_refl_ix :
    ∀ (n : Nat) (e : DiffOptions), e.ignoreKeyCase = false →
      e.arrayDiffStrategy = .index →
      ∀ (v : SD) (p : List String), NanFree v →
      (compareCore e n (some v) (some v) p).status = .same ∧
      (compareCore e n (some v) (some v) p).cost = 0 := by
  intro n
  induction n with
  | zero => intro e _ _ v p _; exact ⟨rfl, rfl⟩
  | succ n ih =>
    intro e hkc hstrat v p hnf
    rw [compareCore_succ, show (v.typ != v.typ) = false from by simp, if_neg (by simp)]
    split
    · exact ⟨rfl, rfl⟩
    · rw [show (v.value == v.value) = true from by simp]
      exact ⟨rfl, rfl⟩
    · by_cases hld : shouldDoLineDiff v v = true
      · rw [if_pos hld]
        cases hval : v.value with
        | vStr s => exact compareMultilineStringsW_self e v s p
        | vNone => exact ⟨rfl, rfl⟩
        | vBool b => exact ⟨rfl, rfl⟩
        | vInt m => exact ⟨rfl, rfl⟩
        | vFloat f => exact ⟨rfl, rfl⟩
      · rw [if_neg hld, if_pos (stringPayloadEqual_refl e _)]
        exact ⟨rfl, rfl⟩
    · rw [equalNumbers_refl hnf.payload]
      exact ⟨rfl, rfl⟩
    · rw [if_neg (by rw [hstrat]; simp)]
      refine compareArraysByIndexW_refl v p ?_
      intro i q
      show (compareCore e n v.elements[i]? v.elements[i]? q).status = .same
      cases hxi : v.elements[i]? with
      | none => rw [compareCore_none_none]; rfl
      | some x => exact (ih e hkc hstrat x q (hnf.element (List.getElem?_mem hxi))).1
    · refine compareObjectsW_exact_refl e v p hkc ?_
      intro k q
      show (compareCore e n (lookupChild v k) (lookupChild v k) q).status = .same
      cases hlk : lookupChild v k with
      | none => rw [compareCore_none_none]; rfl
      | some c => exact (ih e hkc hstrat c q (hnf.child (lookup_mem hlk))).1

/-! ## Claim C2: reflexivity of Compare -/

theorem lineSD_nanFree (s : String) : NanFree (lineSD s) :=
  NanFree.mk _ _ _ _ (fun h => GoValue.noConfusion h)
    (fun kv hkv => absurd hkv (List.not_mem_nil kv))
    (fun x hx => absurd hx (List.not_mem_nil x))

def c2Arr : SD := .mk .typeArray .vNone [] [.mk .typeNumber (.vInt 1) [] [], lineSD "a"]

def c2Tree : SD := .mk .typeObject .vNone [("nums", c2Arr)] []

theorem c2Tree_nanFree : NanFree c2Tree := by
  refine NanFree.mk _ _ _ _ (fun h => GoValue.noConfusion h) ?_ ?_
  · intro kv hkv
    have hkv' : kv = ("nums", c2Arr) := List.mem_singleton.mp hkv
    subst hkv'
    refine NanFree.mk _ _ _ _ (fun h => GoValue.noConfusion h) ?_ ?_
    · intro kv2 hkv2
      exact absurd hkv2 (List.not_mem_nil kv2)
    · intro x hx
      rcases List.mem_cons.mp hx with rfl | hx2
      · exact NanFree.mk _ _ _ _ (fun h => GoValue.noConfusion h)
          (fun kv hkv => absurd hkv (List.not_mem_nil kv))
          (fun y hy => absurd hy (List.not_mem_nil y))
      · have hx' : x = lineSD "a" := List.mem_singleton.mp hx2
        subst hx'
        exact lineSD_nanFree "a"
  · intro x hx
    exact absurd hx (List.not_mem_nil x)

/-- C2 counterexample: a Number node whose payload is the float NaN
compares as `Modified` against itself — IEEE NaN is unequal to itself, so
`equalNumbers` fails — with diff count 1, refuting `Compare(v, v) = Same`
for an arbitrary Value. -/
theorem compare_self_nan_modified :
    (engineCompare {} 1 (some (SD.mk .typeNumber (.vFloat .nan) [] []))
      (some (SD.mk .typeNumber (.vFloat .nan) [] []))).status = .modified ∧
    (engineCompare {} 1 (some (SD.mk .typeNumber (.vFloat .nan) [] []))
      (some (SD.mk .typeNumber (.vFloat .nan) [] []))).cost = 1 := by
  exact ⟨rfl, rfl⟩

/-- C2 (corrected): for every Value `v` none of whose payloads is the
float NaN, under exact key matching (`IgnoreKeyCase` off) and the
(default) index array strategy — the deterministic comparison paths —
`Compare(v, v)` returns a DiffResult with status `Same` and diff count 0,
at every fuel; the remaining ignore flags are arbitrary.  The original
claim over all Values fails for trees containing a NaN Number payload
(see the counterexample); with `IgnoreKeyCase` the Go code pairs
case-colliding keys through two independent randomized map iterations,
and under the value strategy the unstable `sort.Slice` tie order can
select zero-cost non-`Same` pairs, so reflexivity is not guaranteed on
those paths either. -/
theorem compare_self_same_zero_of_nanFree (e : DiffOptions) (fuel : Nat) (v : SD)
    (hkc : e.ignoreKeyCase = false) (hstrat : e.arrayDiffStrategy = .index)
    (h : NanFree v) :
    (engineCompare e fuel (some v) (some v)).status = .same ∧
    (engineCompare e fuel (some v) (some v)).cost = 0 :=
  compareCore_refl_ix fuel e hkc hstrat v [] h

theorem compare_self_same_zero_of_nanFree_witness :
    (engineCompare { ignoreValueCase := true } 5 (some c2Tree) (some c2Tree)).status
      = .same ∧
    (engineCompare { ignoreValueCase := true } 5 (some c2Tree) (some c2Tree)).cost
      = 0 :=
  compare_self_same_zero_of_nanFree { ignoreValueCase := true } 5 c2Tree rfl rfl
    c2Tree_nanFree

/-- `calculateSize` of a scalar node is 1 (at positive fuel). -/
theorem calcSize_scalar {d : SD} (ht : d.typ ≠ .typeArray ∧ d.typ ≠ .typeObject) :
    ∀ {m : Nat}, 1 ≤ m → calcSize m (some d) = 1 := by
  obtain ⟨t, val, cs, es⟩ := d
  intro m hm
  cases m with
  | zero => omega
  | succ j =>
    cases t with
    | typeNull => rfl
    | typeBool => rfl
    | typeNumber => rfl
    | typeString => rfl
    | typeArray => exact absurd rfl ht.1
    | typeObject => exact absurd rfl ht.2

theorem compareLinePair_cost_of_ne (e : DiffOptions) (x y : Option String)
    (p : List String) (h : (compareLinePair e x y p).status ≠ .same) :
    (compareLinePair e x y p).cost = 1 := by
  match x, y with
  | none, none => exact absurd rfl h
  | none, some t => rfl
  | some s, none => rfl
  | some s, some t =>
    by_cases he : stringPayloadEqual e (.vStr s) (.vStr t) = true
    · refine absurd ?_ h
      show DiffResult.status
        (if stringPayloadEqual e (.vStr s) (.vStr t) then _ else _) = _
      rw [if_pos he]
      rfl
    · show DiffResult.cost
        (if stringPayloadEqual e (.vStr s) (.vStr t) then _ else _) = _
      rw [if_neg he]
      rfl

theorem accumStatus_ne_exists {children : List DiffResult}
    (h : accumStatus children ≠ .same) : ∃ c ∈ children, c.status ≠ .same := by
  by_cases ha : (children.any fun c => c.status != .same) = true
  · obtain ⟨c, hc, hne⟩ := List.any_eq_true.mp ha
    exact ⟨c, hc, by simpa using hne⟩
  · refine absurd ?_ h
    unfold accumStatus
    rw [if_neg ha]

/-- A multiline comparison that differs counts at least one changed
line. -/
theorem compareMultilineStringsW_cost_pos (e : DiffOptions) (a b : SD) (s t : String)
    (p : List String) (h : (compareMultilineStringsW e a b s t p).status ≠ .same) :
    1 ≤ (compareMultilineStringsW e a b s t p).cost := by
  have hst : accumStatus
      ((List.range (max (goSplitLines s).length (goSplitLines t).length)).map
        fun i => compareLinePair e (goSplitLines s)[i]? (goSplitLines t)[i]? (p ++ [idxSeg i]))
      ≠ .same := by
    intro hc
    apply h
    simp only [compareMultilineStringsW, DiffResult.status_mk]
    exact hc
  obtain ⟨c, hc, hcne⟩ := accumStatus_ne_exists hst
  have h1 : (if c.status != .same then c.cost else 0) = 1 := by
    rw [if_pos (by simpa using hcne)]
    obtain ⟨i, _, rfl⟩ := List.mem_map.mp hc
    exact compareLinePair_cost_of_ne e _ _ _ hcne
  show 1 ≤ DiffResult.cost (compareMultilineStringsW e a b s t p)
  simp only [compareMultilineStringsW, DiffResult.cost_mk_some]
  unfold accumCount
  calc 1 = _ := h1.symm
    _ ≤ _ := List.single_le_sum (fun x _ => Nat.zero_le x) _
      (List.mem_map_of_mem (fun c => if c.status != .same then c.cost else 0) hc)

/-- A scalar node (first argument) that compares as not-`Same` contributes
at least one to the diff count, once the fuel is at least 2. -/
theorem compareCore_scalar_cost_pos (e : DiffOptions) {n : Nat} (hn : 2 ≤ n)
    (a b : SD) (ha : a.typ ≠ .typeArray ∧ a.typ ≠ .typeObject) (p : List String) :
    (compareCore e n (some a) (some b) p).status ≠ .same →
    1 ≤ (compareCore e n (some a) (some b) p).cost := by
  cases n with
  | zero => omega
  | succ m =>
    rw [compareCore_succ]
    split
    · intro _
      rw [DiffResult.cost_mk_some]
      have h1 := calcSize_scalar ha (show 1 ≤ m by omega)
      omega
    · split
      · intro hne
        exact absurd rfl hne
      · split
        · intro hne
          exact absurd rfl hne
        · intro _
          rw [DiffResult.cost_mk_some]
      · split
        · split
          · intro hne
            exact compareMultilineStringsW_cost_pos e a b _ _ p hne
          · intro hne
            exact absurd rfl hne
        · split
          · intro hne
            exact absurd rfl hne
          · intro _
            rw [DiffResult.cost_mk_some]
      · split
        · intro hne
          exact absurd rfl hne
        · intro _
          rw [DiffResult.cost_mk_some]
      · rename_i ht
        exact fun _ => absurd ht ha.1
      · rename_i ht
        exact fun _ => absurd ht ha.2

/-- The comparator step on two array nodes under the value strategy. -/
theorem compareCore_array_value (e : DiffOptions) (n : Nat)
    (v1 : GoValue) (c1 : List (String × SD)) (e1 : List SD)
    (v2 : GoValue) (c2 : List (String × SD)) (e2 : List SD)
    (p : List String) (hstrat : e.arrayDiffStrategy = .value) :
    compareCore e (n + 1) (some (SD.mk .typeArray v1 c1 e1))
      (some (SD.mk .typeArray v2 c2 e2)) p =
    compareArraysByValueW (fun x y q => compareCore e n x y q)
      (SD.mk .typeArray v1 c1 e1) (SD.mk .typeArray v2 c2 e2) p := by
  rw [compareCore_succ]
  rw [show ((SD.mk DataType.typeArray v1 c1 e1).typ !=
    (SD.mk DataType.typeArray v2 c2 e2).typ) = false from rfl]
  rw [if_neg (by simp)]
  show (if e.arrayDiffStrategy == ArrayDiffStrategy.value then _ else _) = _
  rw [if_pos (by rw [hstrat]; rfl)]

theorem ofFn_getElem_lt {α : Type} {k : Nat} (f : Fin k → α) {i : Nat} (hi : i < k) :
    (List.ofFn f)[i]? = some (f ⟨i, hi⟩) := by
  rw [List.getElem?_ofFn]
  simp [List.ofFnNthVal, hi]

/-- The value-strategy matcher on an array of pairwise-distinct,
self-equal elements against a permutation of it: the zero-cost pairs are
exactly the graph of the permutation, the greedy scan selects all of
them, and the node is `Same` with diff count 0. -/
theorem compareArraysByValueW_perm
    {cmp : Option SD → Option SD → List String → DiffResult}
    {k : Nat} (f : Fin k → SD) (σ : Equiv.Perm (Fin k))
    (A B : SD) (hA : A.elements = List.ofFn f)
    (hB : B.elements = List.ofFn fun j => f (σ j)) (p : List String)
    (hself : ∀ i, (cmp (some (f i)) (some (f i)) []).status = .same ∧
      (cmp (some (f i)) (some (f i)) []).cost = 0)
    (hpos : ∀ i j, i ≠ j → 1 ≤ (cmp (some (f i)) (some (f j)) []).cost) :
    (compareArraysByValueW cmp A B p).status = .same ∧
    (compareArraysByValueW cmp A B p).cost = 0 := by
  have hshape : ∀ m ∈ valuePairs cmp A B,
      ∃ (hi : m.indexA < k) (hj : m.indexB < k),
        m.diff = cmp (some (f ⟨m.indexA, hi⟩)) (some (f (σ ⟨m.indexB, hj⟩))) [] ∧
        m.cost = (cmp (some (f ⟨m.indexA, hi⟩)) (some (f (σ ⟨m.indexB, hj⟩))) []).cost := by
    intro m hm
    obtain ⟨x, y, hxe, hye, hmeq⟩ := mem_valuePairs hm
    rw [hA] at hxe
    rw [hB] at hye
    have hi : m.indexA < k := by
      have := (List.getElem?_eq_some.mp hxe).1
      simpa [List.length_ofFn] using this
    have hj : m.indexB < k := by
      have := (List.getElem?_eq_some.mp hye).1
      simpa [List.length_ofFn] using this
    obtain rfl : x = f ⟨m.indexA, hi⟩ :=
      Option.some.inj (hxe.symm.trans (ofFn_getElem_lt f hi))
    obtain rfl : y = f (σ ⟨m.indexB, hj⟩) :=
      Option.some.inj (hye.symm.trans (ofFn_getElem_lt _ hj))
    exact ⟨hi, hj, congrArg MatchEntry.diff hmeq, congrArg MatchEntry.cost hmeq⟩
  have hzmem : ∀ m ∈ ((valuePairs cmp A B).filter fun m => m.cost == 0),
      ∃ (hi : m.indexA < k) (hj : m.indexB < k),
        σ ⟨m.indexB, hj⟩ = ⟨m.indexA, hi⟩ ∧ m.diff.status = .same := by
    intro m hm
    obtain ⟨hi, hj, hdiff, hcost⟩ := hshape m (List.mem_of_mem_filter hm)
    have hz0 : m.cost = 0 := by simpa using (List.mem_filter.mp hm).2
    by_cases hfe : σ ⟨m.indexB, hj⟩ = ⟨m.indexA, hi⟩
    · refine ⟨hi, hj, hfe, ?_⟩
      rw [hdiff, hfe]
      exact (hself _).1
    · exfalso
      have hne : (⟨m.indexA, hi⟩ : Fin k) ≠ σ ⟨m.indexB, hj⟩ := fun h => hfe h.symm
      have hp := hpos _ _ hne
      rw [← hcost] at hp
      omega
  have hpw : List.Pairwise (fun x y => x.indexA ≠ y.indexA ∧ x.indexB ≠ y.indexB)
      ((valuePairs cmp A B).filter fun m => m.cost == 0) := by
    refine List.Pairwise.imp_of_mem ?_
      (List.Pairwise.sublist (List.filter_sublist _) (valuePairs_pairwise A B))
    intro m m' hm hm' hlex
    obtain ⟨hi, hj, hfe, _⟩ := hzmem m hm
    obtain ⟨hi', hj', hfe', _⟩ := hzmem m' hm'
    have hrowcol : m.indexA = m'.indexA ↔ m.indexB = m'.indexB := by
      constructor
      · intro hr
        have hs : σ ⟨m.indexB, hj⟩ = σ ⟨m'.indexB, hj'⟩ := by
          rw [hfe, hfe']
          exact Fin.ext hr
        simpa using congrArg Fin.val (σ.injective hs)
      · intro hc
        have hs : σ ⟨m.indexB, hj⟩ = σ ⟨m'.indexB, hj'⟩ :=
          congrArg (fun z => σ z) (Fin.ext hc)
        rw [hfe, hfe'] at hs
        simpa using congrArg Fin.val hs
    unfold entryLexLt at hlex
    rcases hlex with hlt | ⟨heq, hltB⟩
    · refine ⟨by omega, ?_⟩
      intro hBeq
      have := hrowcol.mpr hBeq
      omega
    · exfalso
      have := hrowcol.mp heq
      omega
  have hall := selectGreedy_all ((valuePairs cmp A B).filter fun m => m.cost == 0) [] []
    (fun m _ => ⟨rfl, rfl⟩) hpw
  have hrowcov : ∀ i, i < k →
      ∃ m ∈ ((valuePairs cmp A B).filter fun m => m.cost == 0), m.indexA = i := by
    intro i hi
    have hj0 : (σ.symm ⟨i, hi⟩ : Fin k).val < k := (σ.symm ⟨i, hi⟩).isLt
    have hx : A.elements[i]? = some (f ⟨i, hi⟩) := by
      rw [hA]
      exact ofFn_getElem_lt f hi
    have hy : B.elements[(σ.symm ⟨i, hi⟩ : Fin k).val]? =
        some (f (σ ⟨(σ.symm ⟨i, hi⟩ : Fin k).val, hj0⟩)) := by
      rw [hB]
      exact ofFn_getElem_lt _ hj0
    rw [show σ ⟨(σ.symm ⟨i, hi⟩ : Fin k).val, hj0⟩ = ⟨i, hi⟩ from
      σ.apply_symm_apply ⟨i, hi⟩] at hy
    refine ⟨MatchEntry.mk i (σ.symm ⟨i, hi⟩ : Fin k).val
        (cmp (some (f ⟨i, hi⟩)) (some (f ⟨i, hi⟩)) [])
        (cmp (some (f ⟨i, hi⟩)) (some (f ⟨i, hi⟩)) []).cost,
      List.mem_filter.mpr ⟨valuePairs_mem hx hy, ?_⟩, rfl⟩
    show ((cmp (some (f ⟨i, hi⟩)) (some (f ⟨i, hi⟩)) []).cost == 0) = true
    simp [(hself ⟨i, hi⟩).2]
  have hcolcov : ∀ j, j < k →
      ∃ m ∈ ((valuePairs cmp A B).filter fun m => m.cost == 0), m.indexB = j := by
    intro j hj
    have hi0 : (σ ⟨j, hj⟩ : Fin k).val < k := (σ ⟨j, hj⟩).isLt
    have hx : A.elements[(σ ⟨j, hj⟩ : Fin k).val]? = some (f (σ ⟨j, hj⟩)) := by
      rw [hA]
      exact ofFn_getElem_lt f hi0
    have hy : B.elements[j]? = some (f (σ ⟨j, hj⟩)) := by
      rw [hB]
      exact ofFn_getElem_lt _ hj
    refine ⟨MatchEntry.mk (σ ⟨j, hj⟩ : Fin k).val j
        (cmp (some (f (σ ⟨j, hj⟩))) (some (f (σ ⟨j, hj⟩))) [])
        (cmp (some (f (σ ⟨j, hj⟩))) (some (f (σ ⟨j, hj⟩))) []).cost,
      List.mem_filter.mpr ⟨valuePairs_mem hx hy, ?_⟩, rfl⟩
    show ((cmp (some (f (σ ⟨j, hj⟩))) (some (f (σ ⟨j, hj⟩))) []).cost == 0) = true
    simp [(hself (σ ⟨j, hj⟩)).2]
  have hphase : valueSelection cmp A B =
      selectGreedy ((valuePairs cmp A B).filter fun m => m.cost == 0) [] [] := by
    apply valueSelection_phase1
    intro m hm
    have hlt : m.indexA < k := by
      have h1 := (valuePairs_lt hm).1
      rw [hA] at h1
      simpa [List.length_ofFn] using h1
    exact (hall.2.1 m.indexA).mpr (Or.inr (hrowcov m.indexA hlt))
  refine compareArraysByValueW_same p ?_ ?_ ?_
  · intro m hm
    rw [hphase, hall.1] at hm
    obtain ⟨_, _, _, hsame⟩ := hzmem m hm
    exact hsame
  · intro i hi
    rw [hphase]
    have hik : i < k := by
      rw [hA] at hi
      simpa [List.length_ofFn] using hi
    have hc := (hall.2.1 i).mpr (Or.inr (hrowcov i hik))
    simpa using hc
  · intro j hj
    rw [hphase]
    have hjk : j < k := by
      rw [hB] at hj
      simpa [List.length_ofFn] using hj
    have hc := (hall.2.2 j).mpr (Or.inr (hcolcov j hjk))
    simpa using hc

/-! ## Claim C7: value-strategy matching of permuted arrays -/

/-- C7 counterexample: under the value strategy, the one-element array
holding a NaN Number — an array of (trivially) pairwise-distinct scalar
values — compared with the identity permutation of itself yields
`Modified` with diff count 1: the only candidate pair costs 1 because NaN
is unequal to itself, and the matched child is `Modified`. -/
theorem value_strategy_permutation_nan_modified :
    (engineCompare { arrayDiffStrategy := .value } 3
      (some (SD.mk .typeArray .vNone [] [SD.mk .typeNumber (.vFloat .nan) [] []]))
      (some (SD.mk .typeArray .vNone [] [SD.mk .typeNumber (.vFloat .nan) [] []]))).status
      = .modified ∧
    (engineCompare { arrayDiffStrategy := .value } 3
      (some (SD.mk .typeArray .vNone [] [SD.mk .typeNumber (.vFloat .nan) [] []]))
      (some (SD.mk .typeArray .vNone [] [SD.mk .typeNumber (.vFloat .nan) [] []]))).cost
      = 1 := by
  exact ⟨rfl, rfl⟩

/-- C7 (corrected): under the value-strategy array matcher, comparing an
array of pairwise-distinct (as judged by the engine), NaN-free scalar
values with any permutation of itself yields status `Same` and diff
count 0: every element finds its exact match regardless of order.  This
holds at any fuel at least 3 (`n ≥ 2` below); the concrete instance
`["a","b","c"]` vs `["c","a","b"]` is the witness.  The original claim
without the NaN-freedom restriction fails (see the counterexample: a NaN
element never matches itself). -/
theorem value_strategy_permutation_same (e : DiffOptions) {n : Nat} (hn : 2 ≤ n)
    {k : Nat} (f : Fin k → SD) (σ : Equiv.Perm (Fin k))
    (hstrat : e.arrayDiffStrategy = .value)
    (hscalar : ∀ i, (f i).typ ≠ .typeArray ∧ (f i).typ ≠ .typeObject)
    (hnan : ∀ i, NanFree (f i))
    (hdist : ∀ i j, i ≠ j →
      (compareCore e n (some (f i)) (some (f j)) []).status ≠ .same) :
    (engineCompare e (n + 1) (some (SD.mk .typeArray .vNone [] (List.ofFn f)))
      (some (SD.mk .typeArray .vNone [] (List.ofFn fun j => f (σ j))))).status = .same ∧
    (engineCompare e (n + 1) (some (SD.mk .typeArray .vNone [] (List.ofFn f)))
      (some (SD.mk .typeArray .vNone [] (List.ofFn fun j => f (σ j))))).cost = 0 := by
  unfold engineCompare
  rw [compareCore_array_value e n _ _ _ _ _ _ [] hstrat]
  exact compareArraysByValueW_perm f σ (SD.mk .typeArray .vNone [] (List.ofFn f))
    (SD.mk .typeArray .vNone [] (List.ofFn fun j => f (σ j))) rfl rfl []
    (fun i => compareCore_refl n e (f i) [] (hnan i))
    (fun i j hij => compareCore_scalar_cost_pos e hn (f i) (f j) (hscalar i) []
      (hdist i j hij))

def c7f : Fin 3 → SD := ![lineSD "a", lineSD "b", lineSD "c"]

def c7σ : Equiv.Perm (Fin 3) where
  toFun := ![1, 2, 0]
  invFun := ![2, 0, 1]
  left_inv := by decide
  right_inv := by decide

theorem value_strategy_permutation_same_witness :
    (engineCompare { arrayDiffStrategy := .value } 3
      (some (SD.mk .typeArray .vNone [] (List.ofFn c7f)))
      (some (SD.mk .typeArray .vNone []
        (List.ofFn fun j => c7f (c7σ j))))).status = .same ∧
    (engineCompare { arrayDiffStrategy := .value } 3
      (some (SD.mk .typeArray .vNone [] (List.ofFn c7f)))
      (some (SD.mk .typeArray .vNone []
        (List.ofFn fun j => c7f (c7σ j))))).cost = 0 :=
  value_strategy_permutation_same { arrayDiffStrategy := .value } (by omega) c7f c7σ rfl
    (by decide)
    (by
      intro i
      fin_cases i
      · exact lineSD_nanFree "a"
      · exact lineSD_nanFree "b"
      · exact lineSD_nanFree "c")
    (by decide)
